import Mathlib

/-!
Verification development for `subtitles.py`: a converter from a timestamped
chat transcript to an ASS subtitle overlay track.

Python strings are modelled as lists of code points (`Str`), Python
`datetime`/`timedelta` values as integers counting centiseconds (hundredths
of a second) — every time value in the program is a multiple of one
hundredth of a second, so this representation is exact.  Python code paths
that raise (IndexError, KeyError, ValueError) are modelled as `none`.
-/

abbrev Str := List Char

def pystr (s : String) : Str := s.data

/-- `MAX_LINE_LENGTH` (line 13 of the source). -/
def MAX_LINE_LENGTH : Nat := 37

/-- `LINES_ON_SCREEN` (line 14 of the source). -/
def LINES_ON_SCREEN : Nat := 24

/-- `Message` dataclass: a display line carrying its mapped timestamp. -/
structure Message where
  sent_time : Str
  text : Str
  deriving DecidableEq, Repr

/-- Value of a decimal digit character. -/
def digitVal (c : Char) : Nat := c.toNat - 48

def twoDigits? (c1 c2 : Char) : Option Nat :=
  if c1.isDigit && c2.isDigit then some (10 * digitVal c1 + digitVal c2) else none

/-- Modelled from the spec: `datetime.strptime(ts, "%H:%M:%S")` (Python
standard library, not repository code), restricted to the canonical
two-digit form `HH:MM:SS` used by the transcript; returns the time of day
in seconds. -/
def parseHMS : Str → Option Nat
  | [h1, h2, ':', m1, m2, ':', s1, s2] => do
      let h ← twoDigits? h1 h2
      let m ← twoDigits? m1 m2
      let s ← twoDigits? s1 s2
      if h ≤ 23 && m ≤ 59 && s ≤ 59 then pure (3600 * h + 60 * m + s) else none
  | _ => none

/-- Modelled from the spec: `datetime.strptime(ts, "%H:%M:%S.%f")` (Python
standard library, not repository code), restricted to the canonical
`HH:MM:SS.ff` form used by `CRUMBLES_SNIPS`; returns centiseconds. -/
def parseHMSf : Str → Option Nat
  | [h1, h2, ':', m1, m2, ':', s1, s2, '.', f1, f2] => do
      let h ← twoDigits? h1 h2
      let m ← twoDigits? m1 m2
      let s ← twoDigits? s1 s2
      let f ← twoDigits? f1 f2
      if h ≤ 23 && m ≤ 59 && s ≤ 59 then pure (100 * (3600 * h + 60 * m + s) + f)
      else none
  | _ => none

def pad2 (n : Nat) : Str := [Nat.digitChar (n / 10 % 10), Nat.digitChar (n % 10)]

/-- `datetime.strftime(d, "%H:%M:%S.00")` (line 196): the directives render
the hour, minute and second fields of the datetime (its time of day), and
the trailing `.00` is LITERAL text — the fractional-second component of the
datetime is not rendered at all.  The datetime is reduced to its time of
day (`emod` by one day in centiseconds) exactly as `%H:%M:%S` does. -/
def fmtHMS00 (v : Int) : Str :=
  let c : Nat := (v.emod 8640000).toNat
  let s := c / 100
  pad2 (s / 3600) ++ ':' :: pad2 (s % 3600 / 60) ++ ':' :: pad2 (s % 60) ++ pystr ".00"

/-- `CRUMBLES_SNIPS` (lines 121-132). -/
def CRUMBLES_SNIPS : List (Str × Str) := [
  (pystr "00:05:20.00", pystr "00:05:54.00"),
  (pystr "00:25:34.00", pystr "00:25:39.90"),
  (pystr "00:39:01.90", pystr "00:39:11.00"),
  (pystr "00:39:06.00", pystr "00:39:50.00"),
  (pystr "00:40:12.40", pystr "00:40:22.20"),
  (pystr "00:40:32.40", pystr "00:41:43.70"),
  (pystr "00:57:17.60", pystr "00:57:37.50"),
  (pystr "00:58:00.00", pystr "00:58:19.90"),
  (pystr "01:21:08.70", pystr "01:21:20.00"),
  (pystr "01:21:15.00", pystr "01:22:49.00")]

/-- `convert_to_datetime` (lines 135-136), in centiseconds. -/
def convert_to_datetime (s : Str) : Option Int :=
  (parseHMSf s).map (fun n => (n : Int))

/-- The loop of `convert_crumbles_to_absolute` (lines 139-152), generalized
over the snip list and the running `total_snipped` accumulator.  Each snip
`(b, e)` becomes `(b + total, e + total, total)` and the total grows by the
snip's duration. -/
def convert_crumbles_to_absolute_loop : List (Int × Int) → Int → List (Int × Int × Int)
  | [], _ => []
  | (b, e) :: rest, total =>
      (b + total, e + total, total) ::
        convert_crumbles_to_absolute_loop rest (total + (e - b))

/-- `convert_crumbles_to_absolute` (lines 139-152): parse the concrete snip
strings and run the accumulating loop. -/
def convert_crumbles_to_absolute : Option (List (Int × Int × Int)) := do
  let parsed ← CRUMBLES_SNIPS.mapM (fun p => do
      let b ← convert_to_datetime p.1
      let e ← convert_to_datetime p.2
      pure (b, e))
  pure (convert_crumbles_to_absolute_loop parsed 0)

/-- The membership test of the `held_within` comprehension (lines 169-173):
`begin <= timestamp_as_date <= end`. -/
def insideB (t : Int) (x : Int × Int × Int) : Bool := decide (x.1 ≤ t ∧ t ≤ x.2.1)

/-- The condition of the index comprehension on lines 188-192:
`end < timestamp_as_date` for the entry at index `i`. -/
def end_lt (absolutes : List (Int × Int × Int)) (t : Int) (i : Nat) : Bool :=
  match absolutes[i]? with
  | some x => decide (x.2.1 < t)
  | none => false

/-- Lines 168-194 of `convert_message_timestamp_to_subtitle_time`: the snip
adjustment applied to the offset-adjusted candidate time `t`.
`held_within[0]` is the first entry containing `t`; the comprehension on
lines 188-192 takes the LAST index whose end precedes `t` and looks up the
cumulative removal of the FOLLOWING entry.  Python IndexError paths
(empty `absolutes`, empty comprehension result, index `i + 1` out of
range) are modelled as `none`. -/
def snip_adjust (absolutes : List (Int × Int × Int)) (t : Int) : Option Int :=
  match absolutes.find? (insideB t) with
  | some x => some (x.1 - x.2.2)
  | none =>
    match absolutes.head?, absolutes.getLast? with
    | some first, some last =>
      if t < first.1 then some t
      else if last.2.1 < t then some (t - last.2.2)
      else
        match ((List.range absolutes.length).filter (end_lt absolutes t)).getLast? with
        | some i =>
          match absolutes[i + 1]? with
          | some y => some (t - y.2.2)
          | none => none
        | none => none
    | _, _ => none

/-- The fixed chat-to-video offset `timedelta(hours=4, minutes=3, seconds=52)`
(line 162), in centiseconds. -/
def chat_offset_centi : Int := (4 * 3600 + 3 * 60 + 52) * 100

/-- `convert_message_timestamp_to_subtitle_time` (lines 155-196): parse the
raw `HH:MM:SS` chat timestamp, subtract the fixed offset, apply the snip
adjustment over the absolute snip states, and render with
`strftime("%H:%M:%S.00")`. -/
def convert_message_timestamp_to_subtitle_time (ts : Str) : Option Str := do
  let secs ← parseHMS ts
  let t : Int := (secs : Int) * 100 - chat_offset_centi
  let absolutes ← convert_crumbles_to_absolute
  let v ← snip_adjust absolutes t
  pure (fmtHMS00 v)

/-- The same mapping generalized over the snip list (the claims quantify over
all sorted non-overlapping snip lists): raw chat time in seconds, result in
centiseconds, before formatting. -/
def map_snips (snips : List (Int × Int)) (rawSecs : Nat) : Option Int :=
  snip_adjust (convert_crumbles_to_absolute_loop snips 0)
    ((rawSecs : Int) * 100 - chat_offset_centi)

/-- Sorted and non-overlapping: each snip is an ordered interval and each
snip ends strictly before the next begins. -/
def wfSnips : List (Int × Int) → Bool
  | [] => true
  | [(b, e)] => decide (b ≤ e)
  | (b, e) :: (b', e') :: rest =>
      decide (b ≤ e) && decide (e < b') && wfSnips ((b', e') :: rest)

/-- Proof-side recursive form of the snip adjustment (not a source
translation; used only to reason about `snip_adjust`).  `acc` is the
cumulative removal threaded to the current position. -/
def squash (acc : Int) : List (Int × Int) → Int → Int
  | [], t => t - acc
  | (b, e) :: rest, t =>
      if t < b + acc then t - acc
      else if t ≤ e + acc then b
      else
        match rest with
        | [] => t - acc
        | _ :: _ => squash (acc + (e - b)) rest t

theorem insideB_iff {t : Int} {x : Int × Int × Int} :
    insideB t x = true ↔ x.1 ≤ t ∧ t ≤ x.2.1 := by
  simp [insideB]

theorem wfSnips_tail {x : Int × Int} {s : List (Int × Int)}
    (h : wfSnips (x :: s) = true) : wfSnips s = true := by
  cases s with
  | nil => rfl
  | cons y s' =>
    obtain ⟨b, e⟩ := x; obtain ⟨b', e'⟩ := y
    simp only [wfSnips, Bool.and_eq_true] at h
    exact h.2

theorem wfSnips_head {b e : Int} {s : List (Int × Int)}
    (h : wfSnips ((b, e) :: s) = true) : b ≤ e := by
  cases s with
  | nil => simpa [wfSnips] using h
  | cons y s' =>
    obtain ⟨b', e'⟩ := y
    simp only [wfSnips, Bool.and_eq_true, decide_eq_true_eq] at h
    exact h.1.1

theorem wfSnips_two {b e b' e' : Int} {s : List (Int × Int)}
    (h : wfSnips ((b, e) :: (b', e') :: s) = true) : e < b' := by
  simp only [wfSnips, Bool.and_eq_true, decide_eq_true_eq] at h
  exact h.1.2

/-- Bounds for every entry of the absolute snip list built from a non-empty
well-formed snip list: its start is at least the first snip's start plus the
incoming accumulator, its start is at most its end, and its stored
cumulative removal is at least the incoming accumulator. -/
theorem memA_bounds :
    ∀ (s : List (Int × Int)) (b e acc : Int) (x : Int × Int × Int),
      wfSnips ((b, e) :: s) = true →
      x ∈ convert_crumbles_to_absolute_loop ((b, e) :: s) acc →
      b + acc ≤ x.1 ∧ x.1 ≤ x.2.1 ∧ acc ≤ x.2.2 := by
  intro s
  induction s with
  | nil =>
    intro b e acc x hwf hx
    have hbe : b ≤ e := wfSnips_head hwf
    simp only [convert_crumbles_to_absolute_loop, List.mem_singleton] at hx
    subst hx
    refine ⟨le_refl _, by simpa using add_le_add_right hbe acc, le_refl _⟩
  | cons y s' ih =>
    intro b e acc x hwf hx
    obtain ⟨b', e'⟩ := y
    have hbe : b ≤ e := wfSnips_head hwf
    have heb' : e < b' := wfSnips_two hwf
    simp only [convert_crumbles_to_absolute_loop, List.mem_cons] at hx
    rcases hx with hx | hx
    · subst hx
      refine ⟨le_refl _, by simpa using add_le_add_right hbe acc, le_refl _⟩
    · have hx' : x ∈ convert_crumbles_to_absolute_loop ((b', e') :: s') (acc + (e - b)) := by
        simp only [convert_crumbles_to_absolute_loop, List.mem_cons]
        exact hx
      have := ih b' e' (acc + (e - b)) x (wfSnips_tail hwf) hx'
      refine ⟨?_, this.2.1, ?_⟩
      · have h1 : b + acc ≤ b' + (acc + (e - b)) := by linarith
        exact le_trans h1 this.1
      · have h1 : acc ≤ acc + (e - b) := by linarith
        exact le_trans h1 this.2.2

/-- The entries of the absolute snip list are pairwise ordered: every
earlier entry ends strictly before every later entry begins. -/
theorem pairwiseA :
    ∀ (s : List (Int × Int)) (acc : Int), wfSnips s = true →
      (convert_crumbles_to_absolute_loop s acc).Pairwise (fun x y => x.2.1 < y.1) := by
  intro s
  induction s with
  | nil => intro acc _; simp [convert_crumbles_to_absolute_loop]
  | cons p rest ih =>
    intro acc hwf
    obtain ⟨b, e⟩ := p
    simp only [convert_crumbles_to_absolute_loop]
    refine List.Pairwise.cons ?_ (ih (acc + (e - b)) (wfSnips_tail hwf))
    intro y hy
    cases rest with
    | nil => simp [convert_crumbles_to_absolute_loop] at hy
    | cons q rest' =>
      obtain ⟨b', e'⟩ := q
      have hb := memA_bounds rest' b' e' (acc + (e - b)) y (wfSnips_tail hwf) hy
      have heb' : e < b' := wfSnips_two hwf
      have : e + acc < b' + (acc + (e - b)) := by
        have hbe : b ≤ e := wfSnips_head hwf
        linarith
      exact lt_of_lt_of_le this hb.1

theorem loop_ne_nil {s : List (Int × Int)} {acc : Int} :
    convert_crumbles_to_absolute_loop s acc = [] ↔ s = [] := by
  cases s with
  | nil => simp [convert_crumbles_to_absolute_loop]
  | cons p rest => obtain ⟨b, e⟩ := p; simp [convert_crumbles_to_absolute_loop]

theorem squash_before {b e acc t : Int} {rest : List (Int × Int)} (h : t < b + acc) :
    squash acc ((b, e) :: rest) t = t - acc := by
  rw [squash.eq_def]
  simp only [if_pos h]

theorem squash_in {b e acc t : Int} {rest : List (Int × Int)}
    (h1 : ¬ t < b + acc) (h2 : t ≤ e + acc) :
    squash acc ((b, e) :: rest) t = b := by
  rw [squash.eq_def]
  simp only [if_neg h1, if_pos h2]

theorem squash_last {b e acc t : Int}
    (h1 : ¬ t < b + acc) (h2 : ¬ t ≤ e + acc) :
    squash acc [(b, e)] t = t - acc := by
  rw [squash.eq_def]
  simp only [if_neg h1, if_neg h2]

theorem squash_rec {b e b' e' acc t : Int} {rest' : List (Int × Int)}
    (h1 : ¬ t < b + acc) (h2 : ¬ t ≤ e + acc) :
    squash acc ((b, e) :: (b', e') :: rest') t =
      squash (acc + (e - b)) ((b', e') :: rest') t := by
  rw [squash.eq_def]
  simp only [if_neg h1, if_neg h2]

theorem squash_inside :
    ∀ (s : List (Int × Int)) (acc t : Int) (x : Int × Int × Int),
      wfSnips s = true → x ∈ convert_crumbles_to_absolute_loop s acc →
      x.1 ≤ t → t ≤ x.2.1 → squash acc s t = x.1 - x.2.2 := by
  intro s
  induction s with
  | nil => intro acc t x _ hx; simp [convert_crumbles_to_absolute_loop] at hx
  | cons p rest ih =>
    intro acc t x hwf hx h1 h2
    obtain ⟨b, e⟩ := p
    rw [convert_crumbles_to_absolute_loop] at hx
    rcases List.mem_cons.mp hx with hx | hx
    · subst hx
      simp only at h1 h2
      have hnlt : ¬ t < b + acc := not_lt.mpr h1
      simp only [squash, if_neg hnlt, if_pos h2]
      ring
    · cases rest with
      | nil => simp [convert_crumbles_to_absolute_loop] at hx
      | cons q rest' =>
        obtain ⟨b', e'⟩ := q
        have hb := memA_bounds rest' b' e' (acc + (e - b)) x (wfSnips_tail hwf) hx
        have hbe : b ≤ e := wfSnips_head hwf
        have heb' : e < b' := wfSnips_two hwf
        have hgt : e + acc < t := by
          have : e + acc < b' + (acc + (e - b)) := by linarith
          exact lt_of_lt_of_le (lt_of_lt_of_le this hb.1) h1
        have hnlt : ¬ t < b + acc := by push_neg; linarith
        have hnle : ¬ t ≤ e + acc := by push_neg; linarith
        simp only [squash, if_neg hnlt, if_neg hnle]
        exact ih (acc + (e - b)) t x (wfSnips_tail hwf) hx h1 h2

theorem squash_after :
    ∀ (s : List (Int × Int)) (acc t : Int) (lst : Int × Int × Int),
      wfSnips s = true →
      (convert_crumbles_to_absolute_loop s acc).getLast? = some lst →
      lst.2.1 < t → squash acc s t = t - lst.2.2 := by
  intro s
  induction s with
  | nil => intro acc t lst _ hl; simp [convert_crumbles_to_absolute_loop] at hl
  | cons p rest ih =>
    intro acc t lst hwf hl hlt
    obtain ⟨b, e⟩ := p
    cases rest with
    | nil =>
      simp only [convert_crumbles_to_absolute_loop, List.getLast?_singleton,
        Option.some.injEq] at hl
      subst hl
      simp only at hlt
      have hbe : b ≤ e := wfSnips_head hwf
      have hnlt : ¬ t < b + acc := by push_neg; linarith
      have hnle : ¬ t ≤ e + acc := by push_neg; linarith
      simp [squash, if_neg hnlt, if_neg hnle]
    | cons q rest' =>
      obtain ⟨b', e'⟩ := q
      have hl' : (convert_crumbles_to_absolute_loop ((b', e') :: rest')
          (acc + (e - b))).getLast? = some lst := by
        rw [convert_crumbles_to_absolute_loop] at hl
        rw [convert_crumbles_to_absolute_loop] at hl ⊢
        simpa using hl
      have hmem := List.mem_of_getLast?_eq_some hl'
      have hb := memA_bounds rest' b' e' (acc + (e - b)) lst (wfSnips_tail hwf) hmem
      have hbe : b ≤ e := wfSnips_head hwf
      have heb' : e < b' := wfSnips_two hwf
      have hgt : e + acc < t := by
        have h1 : e + acc < b' + (acc + (e - b)) := by linarith
        have h2 : b' + (acc + (e - b)) ≤ lst.2.1 := le_trans hb.1 hb.2.1
        linarith
      have hnlt : ¬ t < b + acc := by push_neg; linarith
      have hnle : ¬ t ≤ e + acc := by push_neg; linarith
      simp only [squash, if_neg hnlt, if_neg hnle]
      exact ih (acc + (e - b)) t lst (wfSnips_tail hwf) hl' hlt

theorem squash_mid :
    ∀ (s : List (Int × Int)) (acc t : Int) (i : Nat) (x y : Int × Int × Int),
      wfSnips s = true →
      (convert_crumbles_to_absolute_loop s acc)[i]? = some x →
      (convert_crumbles_to_absolute_loop s acc)[i + 1]? = some y →
      x.2.1 < t → t < y.1 → squash acc s t = t - y.2.2 := by
  intro s
  induction s with
  | nil => intro acc t i x y _ hx; simp [convert_crumbles_to_absolute_loop] at hx
  | cons p rest ih =>
    intro acc t i x y hwf hx hy hxt hty
    obtain ⟨b, e⟩ := p
    rw [convert_crumbles_to_absolute_loop] at hx hy
    cases i with
    | zero =>
      simp only [List.getElem?_cons_zero, Option.some.injEq] at hx
      subst hx
      simp only [List.getElem?_cons_succ] at hy
      cases rest with
      | nil => simp [convert_crumbles_to_absolute_loop] at hy
      | cons q rest' =>
        obtain ⟨b', e'⟩ := q
        rw [convert_crumbles_to_absolute_loop] at hy
        simp only [List.getElem?_cons_zero, Option.some.injEq] at hy
        subst hy
        simp only at hxt hty
        have hbe : b ≤ e := wfSnips_head hwf
        have hnlt : ¬ t < b + acc := by push_neg; linarith
        have hnle : ¬ t ≤ e + acc := not_le.mpr hxt
        rw [squash_rec hnlt hnle, squash_before hty]
    | succ i' =>
      simp only [List.getElem?_cons_succ] at hx hy
      cases rest with
      | nil => simp [convert_crumbles_to_absolute_loop] at hx
      | cons q rest' =>
        obtain ⟨b', e'⟩ := q
        have hmem : x ∈ convert_crumbles_to_absolute_loop ((b', e') :: rest')
            (acc + (e - b)) := List.mem_iff_getElem?.mpr ⟨i', hx⟩
        have hb := memA_bounds rest' b' e' (acc + (e - b)) x (wfSnips_tail hwf) hmem
        have hbe : b ≤ e := wfSnips_head hwf
        have heb' : e < b' := wfSnips_two hwf
        have hgt : e + acc < t := by
          have h1 : e + acc < b' + (acc + (e - b)) := by linarith
          have h2 : b' + (acc + (e - b)) ≤ x.2.1 := le_trans hb.1 hb.2.1
          linarith
        have hnlt : ¬ t < b + acc := by push_neg; linarith
        have hnle : ¬ t ≤ e + acc := by push_neg; linarith
        simp only [squash, if_neg hnlt, if_neg hnle]
        exact ih (acc + (e - b)) t i' x y (wfSnips_tail hwf) hx hy hxt hty

theorem squash_lb :
    ∀ (rest : List (Int × Int)) (b e acc t c : Int),
      wfSnips ((b, e) :: rest) = true → c ≤ b → c ≤ t - acc →
      c ≤ squash acc ((b, e) :: rest) t := by
  intro rest
  induction rest with
  | nil =>
    intro b e acc t c hwf hcb hct
    by_cases h1 : t < b + acc
    · rw [squash_before h1]; exact hct
    · by_cases h2 : t ≤ e + acc
      · simp only [squash, if_neg h1, if_pos h2]; exact hcb
      · simp only [squash, if_neg h1, if_neg h2]; exact hct
  | cons q rest' ih =>
    intro b e acc t c hwf hcb hct
    obtain ⟨b', e'⟩ := q
    by_cases h1 : t < b + acc
    · rw [squash_before h1]; exact hct
    · by_cases h2 : t ≤ e + acc
      · simp only [squash, if_neg h1, if_pos h2]; exact hcb
      · simp only [squash, if_neg h1, if_neg h2]
        have hbe : b ≤ e := wfSnips_head hwf
        have heb' : e < b' := wfSnips_two hwf
        push_neg at h2
        refine ih b' e' (acc + (e - b)) t c (wfSnips_tail hwf) (by linarith) (by linarith)

theorem squash_mono :
    ∀ (s : List (Int × Int)) (acc t1 t2 : Int),
      wfSnips s = true → t1 ≤ t2 → squash acc s t1 ≤ squash acc s t2 := by
  intro s
  induction s with
  | nil => intro acc t1 t2 _ hle; simp only [squash]; linarith
  | cons p rest ih =>
    intro acc t1 t2 hwf hle
    obtain ⟨b, e⟩ := p
    have hbe : b ≤ e := wfSnips_head hwf
    by_cases h1 : t1 < b + acc
    · rw [squash_before h1]
      by_cases h2 : t2 < b + acc
      · rw [squash_before h2]; linarith
      · by_cases h3 : t2 ≤ e + acc
        · rw [squash_in h2 h3]; linarith
        · cases rest with
          | nil => rw [squash_last h2 h3]; push_neg at h2 h3; linarith
          | cons q rest' =>
            obtain ⟨b', e'⟩ := q
            rw [squash_rec h2 h3]
            have heb' : e < b' := wfSnips_two hwf
            push_neg at h2 h3
            have hb := squash_lb rest' b' e' (acc + (e - b)) t2 b (wfSnips_tail hwf)
              (by linarith) (by linarith)
            linarith
    · by_cases h2 : t1 ≤ e + acc
      · rw [squash_in h1 h2]
        push_neg at h1
        by_cases h3 : t2 ≤ e + acc
        · have h4 : ¬ t2 < b + acc := by push_neg; linarith
          rw [squash_in h4 h3]
        · push_neg at h3
          have h4 : ¬ t2 < b + acc := by push_neg; linarith
          cases rest with
          | nil => rw [squash_last h4 (not_le.mpr h3)]; linarith
          | cons q rest' =>
            obtain ⟨b', e'⟩ := q
            rw [squash_rec h4 (not_le.mpr h3)]
            have heb' : e < b' := wfSnips_two hwf
            exact squash_lb rest' b' e' (acc + (e - b)) t2 b (wfSnips_tail hwf)
              (by linarith) (by linarith)
      · push_neg at h1 h2
        have h3 : ¬ t2 < b + acc := by push_neg; linarith
        have h4 : ¬ t2 ≤ e + acc := by push_neg; linarith
        cases rest with
        | nil =>
          rw [squash_last (not_lt.mpr h1) (not_le.mpr h2), squash_last h3 h4]
          linarith
        | cons q rest' =>
          obtain ⟨b', e'⟩ := q
          rw [squash_rec (not_lt.mpr h1) (not_le.mpr h2), squash_rec h3 h4]
          exact ih (acc + (e - b)) t1 t2 (wfSnips_tail hwf) hle

theorem find?_eq_some_of_unique {α : Type} {p : α → Bool} {l : List α} {x : α}
    (hx : x ∈ l) (hpx : p x = true)
    (huniq : ∀ y ∈ l, p y = true → y = x) : l.find? p = some x := by
  induction l with
  | nil => cases hx
  | cons a l ih =>
    by_cases ha : p a = true
    · have hax : a = x := huniq a (List.mem_cons_self a l) ha
      rw [List.find?_cons_of_pos _ ha, hax]
    · rcases List.mem_cons.mp hx with h | h
      · exact absurd (h ▸ hpx) ha
      · rw [List.find?_cons_of_neg _ ha]
        exact ih h (fun y hy hpy => huniq y (List.mem_cons_of_mem a hy) hpy)

/-- Distinct entries of the absolute snip list are disjoint intervals. -/
theorem A_disjoint {s : List (Int × Int)} {acc : Int}
    (hwf : wfSnips s = true) :
    ∀ x ∈ convert_crumbles_to_absolute_loop s acc,
      ∀ y ∈ convert_crumbles_to_absolute_loop s acc,
        x ≠ y → x.2.1 < y.1 ∨ y.2.1 < x.1 := by
  have hp := pairwiseA s acc hwf
  have hs : (convert_crumbles_to_absolute_loop s acc).Pairwise
      (fun x y => x.2.1 < y.1 ∨ y.2.1 < x.1) := hp.imp (fun h => Or.inl h)
  intro x hx y hy hne
  exact hs.forall (fun _ _ h => Or.symm h) hx hy hne

theorem memA_bounds' {s : List (Int × Int)} {acc : Int} {x : Int × Int × Int}
    (hwf : wfSnips s = true) (hx : x ∈ convert_crumbles_to_absolute_loop s acc) :
    x.1 ≤ x.2.1 ∧ acc ≤ x.2.2 := by
  cases s with
  | nil => simp [convert_crumbles_to_absolute_loop] at hx
  | cons p rest =>
    obtain ⟨b, e⟩ := p
    exact ⟨(memA_bounds rest b e acc x hwf hx).2.1, (memA_bounds rest b e acc x hwf hx).2.2⟩

theorem loop_head {b e acc : Int} {rest : List (Int × Int)} :
    (convert_crumbles_to_absolute_loop ((b, e) :: rest) acc).head? =
      some (b + acc, e + acc, acc) := rfl

theorem headA_le {s : List (Int × Int)} {acc : Int} {x f : Int × Int × Int}
    (hwf : wfSnips s = true) (hx : x ∈ convert_crumbles_to_absolute_loop s acc)
    (hf : (convert_crumbles_to_absolute_loop s acc).head? = some f) : f.1 ≤ x.1 := by
  cases s with
  | nil => simp [convert_crumbles_to_absolute_loop] at hx
  | cons p rest =>
    obtain ⟨b, e⟩ := p
    rw [loop_head, Option.some.injEq] at hf
    rw [← hf]
    exact (memA_bounds rest b e acc x hwf hx).1

theorem A_get_lt {s : List (Int × Int)} {acc : Int} {i j : Nat} {x y : Int × Int × Int}
    (hwf : wfSnips s = true)
    (hx : (convert_crumbles_to_absolute_loop s acc)[i]? = some x)
    (hy : (convert_crumbles_to_absolute_loop s acc)[j]? = some y)
    (hij : i < j) : x.2.1 < y.1 := by
  have hp := pairwiseA s acc hwf
  rw [List.pairwise_iff_get] at hp
  obtain ⟨hi, hxe⟩ := List.getElem?_eq_some_iff.mp hx
  obtain ⟨hj, hye⟩ := List.getElem?_eq_some_iff.mp hy
  have h := hp ⟨i, hi⟩ ⟨j, hj⟩ (Fin.mk_lt_mk.mpr hij)
  simp only [List.get_eq_getElem] at h
  rw [hxe, hye] at h
  exact h

theorem snip_adjust_shape_before {abs : List (Int × Int × Int)} {t : Int}
    {f : Int × Int × Int}
    (hfind : abs.find? (insideB t) = none) (hhead : abs.head? = some f)
    (hlt : t < f.1) : snip_adjust abs t = some t := by
  obtain ⟨lst, hlast⟩ : ∃ l', abs.getLast? = some l' := by
    have hne : abs ≠ [] := by intro h; subst h; simp at hhead
    exact Option.isSome_iff_exists.mp (List.getLast?_isSome.mpr hne)
  simp only [snip_adjust, hfind, hhead, hlast, if_pos hlt]

theorem snip_adjust_shape_after {abs : List (Int × Int × Int)} {t : Int}
    {f lst : Int × Int × Int}
    (hfind : abs.find? (insideB t) = none) (hhead : abs.head? = some f)
    (hlast : abs.getLast? = some lst)
    (h1 : ¬ t < f.1) (h2 : lst.2.1 < t) : snip_adjust abs t = some (t - lst.2.2) := by
  simp only [snip_adjust, hfind, hhead, hlast, if_neg h1, if_pos h2]

theorem snip_adjust_shape_mid {abs : List (Int × Int × Int)} {t : Int}
    {f lst y : Int × Int × Int} {i : Nat}
    (hfind : abs.find? (insideB t) = none) (hhead : abs.head? = some f)
    (hlast : abs.getLast? = some lst)
    (h1 : ¬ t < f.1) (h2 : ¬ lst.2.1 < t)
    (hidx : ((List.range abs.length).filter (end_lt abs t)).getLast? = some i)
    (hy : abs[i + 1]? = some y) : snip_adjust abs t = some (t - y.2.2) := by
  simp only [snip_adjust, hfind, hhead, hlast, if_neg h1, if_neg h2, hidx, hy]

theorem filter_range_eq_range {p : Nat → Bool} :
    ∀ (n k : Nat), k ≤ n → (∀ j, j < n → (p j = true ↔ j < k)) →
      (List.range n).filter p = List.range k := by
  intro n
  induction n with
  | zero =>
    intro k hk _
    have : k = 0 := Nat.le_zero.mp hk
    subst this
    rfl
  | succ n ih =>
    intro k hk hp
    rw [List.range_succ, List.filter_append]
    by_cases hkn : k = n + 1
    · subst hkn
      have hpn : p n = true := (hp n (Nat.lt_succ_self n)).mpr (Nat.lt_succ_self n)
      have hall : (List.range n).filter p = List.range n := by
        rw [List.filter_eq_self]
        intro j hj
        exact (hp j (Nat.lt_succ_of_lt (List.mem_range.mp hj))).mpr
          (Nat.lt_succ_of_lt (List.mem_range.mp hj))
      rw [hall, List.range_succ]
      simp [hpn]
    · have hk' : k ≤ n := Nat.lt_succ_iff.mp (lt_of_le_of_ne hk hkn)
      have hpn : p n = false := by
        have h := hp n (Nat.lt_succ_self n)
        have : ¬ n < k := not_lt.mpr hk'
        rcases Bool.eq_false_or_eq_true (p n) with hb | hb
        · exact absurd (h.mp hb) this
        · exact hb
      have : List.filter p [n] = [] := by simp [hpn]
      rw [this, List.append_nil]
      exact ih k hk' (fun j hj => hp j (Nat.lt_succ_of_lt hj))

theorem range_getLast {k : Nat} : (List.range (k + 1)).getLast? = some k := by
  rw [List.range_succ]
  exact List.getLast?_concat _

/-- Inside a snip: if the candidate lies within `[absoluteStart, absoluteEnd]`
of an entry of the absolute snip list (boundaries included), the adjustment
returns that entry's `absoluteStart - cumulativeRemoved`. -/
theorem snip_adjust_inside {s : List (Int × Int)} {acc t : Int} {x : Int × Int × Int}
    (hwf : wfSnips s = true) (hx : x ∈ convert_crumbles_to_absolute_loop s acc)
    (h1 : x.1 ≤ t) (h2 : t ≤ x.2.1) :
    snip_adjust (convert_crumbles_to_absolute_loop s acc) t = some (x.1 - x.2.2) := by
  have hfind : (convert_crumbles_to_absolute_loop s acc).find? (insideB t) = some x := by
    apply find?_eq_some_of_unique hx (insideB_iff.mpr ⟨h1, h2⟩)
    intro y hy hpy
    rcases insideB_iff.mp hpy with ⟨hy1, hy2⟩
    by_contra hne
    rcases A_disjoint hwf y hy x hx hne with h | h
    · linarith
    · linarith
  simp only [snip_adjust, hfind]

/-- Before the first snip: the candidate precedes the first entry's
absolute start, so no adjustment is applied. -/
theorem snip_adjust_before {s : List (Int × Int)} {acc t : Int} {f : Int × Int × Int}
    (hwf : wfSnips s = true)
    (hf : (convert_crumbles_to_absolute_loop s acc).head? = some f)
    (hlt : t < f.1) :
    snip_adjust (convert_crumbles_to_absolute_loop s acc) t = some t := by
  have hfind : (convert_crumbles_to_absolute_loop s acc).find? (insideB t) = none := by
    rw [List.find?_eq_none]
    intro y hy hpy
    rcases insideB_iff.mp hpy with ⟨hy1, _⟩
    have := headA_le hwf hy hf
    linarith
  exact snip_adjust_shape_before hfind hf hlt

/-- After the last snip: the candidate strictly follows the last entry's
absolute end, so the LAST entry's own cumulative removal (the removal before
that snip) is subtracted. -/
theorem snip_adjust_after {s : List (Int × Int)} {acc t : Int} {lst : Int × Int × Int}
    (hwf : wfSnips s = true)
    (hlast : (convert_crumbles_to_absolute_loop s acc).getLast? = some lst)
    (hgt : lst.2.1 < t) :
    snip_adjust (convert_crumbles_to_absolute_loop s acc) t = some (t - lst.2.2) := by
  obtain ⟨l', hdec⟩ := List.getLast?_eq_some_iff.mp hlast
  have hlmem : lst ∈ convert_crumbles_to_absolute_loop s acc :=
    List.mem_of_getLast?_eq_some hlast
  have hlst_bounds := memA_bounds' hwf hlmem
  have hfind : (convert_crumbles_to_absolute_loop s acc).find? (insideB t) = none := by
    rw [List.find?_eq_none]
    intro y hy hpy
    rcases insideB_iff.mp hpy with ⟨hy1, hy2⟩
    rw [hdec] at hy
    rcases List.mem_append.mp hy with hy' | hy'
    · have hp := pairwiseA s acc hwf
      rw [hdec, List.pairwise_append] at hp
      have := hp.2.2 y hy' lst (List.mem_singleton_self lst)
      linarith [hlst_bounds.1]
    · have : y = lst := List.mem_singleton.mp hy'
      subst this
      linarith
  obtain ⟨f, hf⟩ : ∃ f, (convert_crumbles_to_absolute_loop s acc).head? = some f := by
    have hne : convert_crumbles_to_absolute_loop s acc ≠ [] := by
      intro h
      rw [h] at hlast
      simp at hlast
    cases hh : (convert_crumbles_to_absolute_loop s acc).head? with
    | none => exact absurd (List.head?_eq_none_iff.mp hh) hne
    | some f => exact ⟨f, rfl⟩
  have h1 : ¬ t < f.1 := by
    have := headA_le hwf hlmem hf
    push_neg
    linarith [hlst_bounds.1]
  exact snip_adjust_shape_after hfind hf hlast h1 hgt

/-- Between snips: if entry `i` ends strictly before the candidate and entry
`i + 1` begins strictly after it, the adjustment subtracts the cumulative
removal of entry `i + 1` (the latest entry whose end precedes the
candidate is entry `i`, and the code looks up the following entry). -/
theorem snip_adjust_middle {s : List (Int × Int)} {acc t : Int} {i : Nat}
    {x y : Int × Int × Int}
    (hwf : wfSnips s = true)
    (hx : (convert_crumbles_to_absolute_loop s acc)[i]? = some x)
    (hy : (convert_crumbles_to_absolute_loop s acc)[i + 1]? = some y)
    (hxt : x.2.1 < t) (hty : t < y.1) :
    snip_adjust (convert_crumbles_to_absolute_loop s acc) t = some (t - y.2.2) := by
  have hxmem : x ∈ convert_crumbles_to_absolute_loop s acc :=
    List.mem_iff_getElem?.mpr ⟨i, hx⟩
  have hymem : y ∈ convert_crumbles_to_absolute_loop s acc :=
    List.mem_iff_getElem?.mpr ⟨i + 1, hy⟩
  have hxb := memA_bounds' hwf hxmem
  have hyb := memA_bounds' hwf hymem
  have hfind : (convert_crumbles_to_absolute_loop s acc).find? (insideB t) = none := by
    rw [List.find?_eq_none]
    intro z hz hpz
    rcases insideB_iff.mp hpz with ⟨hz1, hz2⟩
    obtain ⟨j, hj⟩ := List.mem_iff_getElem?.mp hz
    rcases lt_trichotomy j i with hji | hji | hji
    · have := A_get_lt hwf hj hx hji
      linarith [hxb.1]
    · subst hji
      rw [hj] at hx
      injection hx with hx
      subst hx
      linarith
    · rcases Nat.lt_or_ge j (i + 2) with hj2 | hj2
      · have : j = i + 1 := by omega
        subst this
        rw [hj] at hy
        injection hy with hy
        subst hy
        linarith
      · have := A_get_lt hwf hy hj (by omega)
        linarith [hyb.1]
  obtain ⟨f, hf⟩ : ∃ f, (convert_crumbles_to_absolute_loop s acc).head? = some f := by
    have hne : convert_crumbles_to_absolute_loop s acc ≠ [] := by
      intro h
      rw [h] at hx
      simp at hx
    cases hh : (convert_crumbles_to_absolute_loop s acc).head? with
    | none => exact absurd (List.head?_eq_none_iff.mp hh) hne
    | some f => exact ⟨f, rfl⟩
  have h1 : ¬ t < f.1 := by
    have := headA_le hwf hxmem hf
    push_neg
    linarith [hxb.1]
  obtain ⟨lst, hlast⟩ : ∃ l', (convert_crumbles_to_absolute_loop s acc).getLast? = some l' := by
    have hne : convert_crumbles_to_absolute_loop s acc ≠ [] := by
      intro h
      rw [h] at hx
      simp at hx
    exact Option.isSome_iff_exists.mp (List.getLast?_isSome.mpr hne)
  have hn1 : i + 1 < (convert_crumbles_to_absolute_loop s acc).length :=
    (List.getElem?_eq_some_iff.mp hy).1
  have hlast_idx : (convert_crumbles_to_absolute_loop s acc).getLast? =
      (convert_crumbles_to_absolute_loop s acc)[
        (convert_crumbles_to_absolute_loop s acc).length - 1]? :=
    List.getLast?_eq_getElem? _
  have h2 : ¬ lst.2.1 < t := by
    rw [hlast_idx] at hlast
    have hlb := memA_bounds' hwf (List.mem_iff_getElem?.mpr ⟨_, hlast⟩)
    rcases Nat.lt_or_ge (i + 1) ((convert_crumbles_to_absolute_loop s acc).length - 1)
      with hcase | hcase
    · have := A_get_lt hwf hy hlast hcase
      push_neg
      linarith [hyb.1]
    · have : i + 1 = (convert_crumbles_to_absolute_loop s acc).length - 1 := by omega
      rw [← this] at hlast
      rw [hlast] at hy
      injection hy with hy
      subst hy
      push_neg
      linarith [hyb.1]
  have hidx : ((List.range (convert_crumbles_to_absolute_loop s acc).length).filter
      (end_lt (convert_crumbles_to_absolute_loop s acc) t)).getLast? = some i := by
    have hfilter : (List.range (convert_crumbles_to_absolute_loop s acc).length).filter
        (end_lt (convert_crumbles_to_absolute_loop s acc) t) = List.range (i + 1) := by
      apply filter_range_eq_range _ _ (by omega)
      intro j hj
      constructor
      · intro hpj
        by_contra hji
        have hji' : i + 1 ≤ j := by omega
        obtain ⟨z, hz⟩ : ∃ z, (convert_crumbles_to_absolute_loop s acc)[j]? = some z := by
          exact Option.isSome_iff_exists.mp (by simp [List.getElem?_eq_some_iff, hj])
        rw [end_lt, hz] at hpj
        have hzt : z.2.1 < t := of_decide_eq_true hpj
        have hzb := memA_bounds' hwf (List.mem_iff_getElem?.mpr ⟨j, hz⟩)
        rcases Nat.lt_or_ge (i + 1) j with hc | hc
        · have := A_get_lt hwf hy hz hc
          linarith [hyb.1]
        · have : j = i + 1 := by omega
          subst this
          rw [hz] at hy
          injection hy with hy
          subst hy
          linarith
      · intro hji
        obtain ⟨z, hz⟩ : ∃ z, (convert_crumbles_to_absolute_loop s acc)[j]? = some z := by
          exact Option.isSome_iff_exists.mp (by simp [List.getElem?_eq_some_iff, hj])
        rw [end_lt, hz]
        rcases Nat.lt_or_ge j i with hc | hc
        · have := A_get_lt hwf hz hx hc
          have hzb := memA_bounds' hwf (List.mem_iff_getElem?.mpr ⟨j, hz⟩)
          exact decide_eq_true (by linarith [hxb.1])
        · have : j = i := by omega
          subst this
          rw [hz] at hx
          injection hx with hx
          subst hx
          exact decide_eq_true (by linarith)
    rw [hfilter]
    exact range_getLast
  exact snip_adjust_shape_mid hfind hf hlast h1 h2 hidx hy

/-- Every candidate falls in one of the four regions: inside a snip state,
before the first, after the last, or strictly between two adjacent states. -/
theorem exhaust :
    ∀ (s : List (Int × Int)) (acc t : Int), wfSnips s = true → s ≠ [] →
      (∃ x ∈ convert_crumbles_to_absolute_loop s acc, x.1 ≤ t ∧ t ≤ x.2.1) ∨
      (∃ f, (convert_crumbles_to_absolute_loop s acc).head? = some f ∧ t < f.1) ∨
      (∃ lst, (convert_crumbles_to_absolute_loop s acc).getLast? = some lst ∧
        lst.2.1 < t) ∨
      (∃ (i : Nat) (x y : Int × Int × Int),
        (convert_crumbles_to_absolute_loop s acc)[i]? = some x ∧
        (convert_crumbles_to_absolute_loop s acc)[i + 1]? = some y ∧
        x.2.1 < t ∧ t < y.1) := by
  intro s
  induction s with
  | nil => intro acc t _ hne; exact absurd rfl hne
  | cons p rest ih =>
    intro acc t hwf _
    obtain ⟨b, e⟩ := p
    by_cases h1 : t < b + acc
    · exact Or.inr (Or.inl ⟨(b + acc, e + acc, acc), loop_head, h1⟩)
    · by_cases h2 : t ≤ e + acc
      · refine Or.inl ⟨(b + acc, e + acc, acc), ?_, ?_, h2⟩
        · rw [convert_crumbles_to_absolute_loop]
          exact List.mem_cons_self _ _
        · simpa using not_lt.mp h1
      · cases rest with
        | nil =>
          refine Or.inr (Or.inr (Or.inl ⟨(b + acc, e + acc, acc), ?_, ?_⟩))
          · rfl
          · simpa using not_le.mp h2
        | cons q rest' =>
          obtain ⟨b', e'⟩ := q
          have hunfold : convert_crumbles_to_absolute_loop ((b, e) :: (b', e') :: rest') acc =
              (b + acc, e + acc, acc) ::
                convert_crumbles_to_absolute_loop ((b', e') :: rest') (acc + (e - b)) := rfl
          by_cases h3 : t < b' + (acc + (e - b))
          · refine Or.inr (Or.inr (Or.inr ⟨0, (b + acc, e + acc, acc),
              (b' + (acc + (e - b)), e' + (acc + (e - b)), acc + (e - b)), ?_, ?_, ?_, h3⟩))
            · rfl
            · have hunfold2 : convert_crumbles_to_absolute_loop ((b', e') :: rest')
                  (acc + (e - b)) =
                  (b' + (acc + (e - b)), e' + (acc + (e - b)), acc + (e - b)) ::
                    convert_crumbles_to_absolute_loop rest' ((acc + (e - b)) + (e' - b')) := rfl
              rw [hunfold, List.getElem?_cons_succ, hunfold2, List.getElem?_cons_zero]
            · simpa using not_le.mp h2
          · rcases ih (acc + (e - b)) t (wfSnips_tail hwf) (by simp) with hin | hbef | haft | hmid
            · obtain ⟨x, hx, hx1, hx2⟩ := hin
              refine Or.inl ⟨x, ?_, hx1, hx2⟩
              rw [hunfold]
              exact List.mem_cons_of_mem _ hx
            · obtain ⟨f, hf, hlt⟩ := hbef
              rw [loop_head, Option.some.injEq] at hf
              exfalso
              rw [← hf] at hlt
              exact h3 (by simpa using hlt)
            · obtain ⟨lst, hlast, hgt⟩ := haft
              refine Or.inr (Or.inr (Or.inl ⟨lst, ?_, hgt⟩))
              rw [hunfold]
              have hunfold2 : convert_crumbles_to_absolute_loop ((b', e') :: rest')
                  (acc + (e - b)) =
                  (b' + (acc + (e - b)), e' + (acc + (e - b)), acc + (e - b)) ::
                    convert_crumbles_to_absolute_loop rest'
                      ((acc + (e - b)) + (e' - b')) := rfl
              rw [hunfold2, List.getLast?_cons_cons]
              rw [hunfold2] at hlast
              exact hlast
            · obtain ⟨i, x, y, hx, hy, hxt, hty⟩ := hmid
              refine Or.inr (Or.inr (Or.inr ⟨i + 1, x, y, ?_, ?_, hxt, hty⟩))
              · rw [hunfold, List.getElem?_cons_succ]
                exact hx
              · rw [hunfold, List.getElem?_cons_succ]
                exact hy

/-- For a non-empty well-formed snip list the source's snip adjustment is
total and agrees with the recursive `squash` form. -/
theorem map_eq_squash {s : List (Int × Int)} {t : Int}
    (hwf : wfSnips s = true) (hne : s ≠ []) :
    snip_adjust (convert_crumbles_to_absolute_loop s 0) t = some (squash 0 s t) := by
  rcases exhaust s 0 t hwf hne with hin | hbef | haft | hmid
  · obtain ⟨x, hx, h1, h2⟩ := hin
    rw [snip_adjust_inside hwf hx h1 h2, squash_inside s 0 t x hwf hx h1 h2]
  · obtain ⟨f, hf, hlt⟩ := hbef
    rw [snip_adjust_before hwf hf hlt]
    cases s with
    | nil => exact absurd rfl hne
    | cons p rest =>
      obtain ⟨b, e⟩ := p
      rw [loop_head, Option.some.injEq] at hf
      rw [← hf] at hlt
      rw [squash_before (show t < b + 0 by simpa using hlt)]
      norm_num
  · obtain ⟨lst, hlast, hgt⟩ := haft
    rw [snip_adjust_after hwf hlast hgt, squash_after s 0 t lst hwf hlast hgt]
  · obtain ⟨i, x, y, hx, hy, hxt, hty⟩ := hmid
    rw [snip_adjust_middle hwf hx hy hxt hty, squash_mid s 0 t i x y hwf hx hy hxt hty]

/-- C1: for every sorted non-overlapping (and non-empty) snip list, the
timestamp mapping built over the snip states of
`convert_crumbles_to_absolute` is monotonically non-decreasing as a function
of the raw chat timestamp: raw timestamps `raw1 ≤ raw2` map to
video-relative times `v1 ≤ v2`. -/
theorem C1_map_monotone {snips : List (Int × Int)} {raw1 raw2 : Nat} {v1 v2 : Int}
    (hwf : wfSnips snips = true) (hne : snips ≠ [])
    (hle : raw1 ≤ raw2)
    (h1 : map_snips snips raw1 = some v1)
    (h2 : map_snips snips raw2 = some v2) : v1 ≤ v2 := by
  rw [map_snips, map_eq_squash hwf hne, Option.some.injEq] at h1 h2
  rw [← h1, ← h2]
  apply squash_mono snips 0 _ _ hwf
  have hc : (raw1 : Int) ≤ (raw2 : Int) := by exact_mod_cast hle
  have := mul_le_mul_of_nonneg_right hc (by norm_num : (0 : Int) ≤ 100)
  linarith

/-- C2: a raw timestamp whose offset-adjusted candidate falls within
`[absoluteStart, absoluteEnd]` of some snip state — boundary equality
included (closed interval) — maps to `absoluteStart - cumulativeRemoved`
of that snip state, the instant the cut begins. -/
theorem C2_inside_collapses {snips : List (Int × Int)} {raw : Nat} {x : Int × Int × Int}
    (hwf : wfSnips snips = true)
    (hx : x ∈ convert_crumbles_to_absolute_loop snips 0)
    (h1 : x.1 ≤ (raw : Int) * 100 - chat_offset_centi)
    (h2 : (raw : Int) * 100 - chat_offset_centi ≤ x.2.1) :
    map_snips snips raw = some (x.1 - x.2.2) :=
  snip_adjust_inside hwf hx h1 h2

/-- C3: for candidates inside no snip state — before the first state no
adjustment is applied; strictly after the last state's end, that last
state's own `cumulativeRemovedBeforeThisSnip` is subtracted; between two
adjacent states the cumulative removal of the state following the latest
one whose absolute end precedes the candidate is subtracted. -/
theorem C3_outside_regions {snips : List (Int × Int)} {raw : Nat}
    (hwf : wfSnips snips = true) :
    (∀ f, (convert_crumbles_to_absolute_loop snips 0).head? = some f →
        (raw : Int) * 100 - chat_offset_centi < f.1 →
        map_snips snips raw = some ((raw : Int) * 100 - chat_offset_centi)) ∧
    (∀ lst, (convert_crumbles_to_absolute_loop snips 0).getLast? = some lst →
        lst.2.1 < (raw : Int) * 100 - chat_offset_centi →
        map_snips snips raw =
          some ((raw : Int) * 100 - chat_offset_centi - lst.2.2)) ∧
    (∀ (i : Nat) (x y : Int × Int × Int),
        (convert_crumbles_to_absolute_loop snips 0)[i]? = some x →
        (convert_crumbles_to_absolute_loop snips 0)[i + 1]? = some y →
        x.2.1 < (raw : Int) * 100 - chat_offset_centi →
        (raw : Int) * 100 - chat_offset_centi < y.1 →
        map_snips snips raw =
          some ((raw : Int) * 100 - chat_offset_centi - y.2.2)) := by
  refine ⟨?_, ?_, ?_⟩
  · intro f hf hlt
    exact snip_adjust_before hwf hf hlt
  · intro lst hlast hgt
    exact snip_adjust_after hwf hlast hgt
  · intro i x y hx hy hxt hty
    exact snip_adjust_middle hwf hx hy hxt hty

/-- Python string repetition `s * n`. -/
def strMul (s : Str) (n : Nat) : Str := (List.replicate n s).flatten

def X_POS : Nat := 170

def Y_POS : Nat := 15

def natToStr (n : Nat) : Str := Nat.toDigits 10 n

/-- `common_line_beginning` (lines 81-86). -/
def common_line_beginning (begin_time end_time : Str) : Str :=
  pystr "Dialogue: 0," ++ begin_time ++ pystr "," ++ end_time ++
    pystr ",Chat Replay,,0,0,0,,\x7b\\pos(" ++ natToStr X_POS ++ pystr "," ++
    natToStr Y_POS ++ pystr ")\x7d"

/-- `format_all_but_bottom` (lines 89-93). -/
def format_all_but_bottom (messages : List Message) (begin_time end_time : Str) : Str :=
  common_line_beginning begin_time end_time ++
    List.intercalate (pystr "\\N") (messages.map (fun m => m.text))

def fade_tag : Str := pystr "\x7b\\fad(1000,0)\x7d"

/-- `format_faded_messages` (lines 96-111): entry `i` of the region has
`index_from_bottom = len(messages) - i` and carries
`" \\N" * (LINES_ON_SCREEN - index_from_bottom)` of vertical padding. -/
def format_faded_messages (messages : List Message) (begin_time end_time : Str) :
    List Str :=
  messages.mapIdx (fun i m =>
    common_line_beginning begin_time end_time ++ fade_tag ++
      strMul (pystr " \\N") (LINES_ON_SCREEN - (messages.length - i)) ++ m.text)

/-- The initial fill loop of `flat_window` (lines 253-258):
`while len(result) < n: result += seq[i]; i += 1`.  The loop walks the
sequence front to back, so it is modelled structurally on the not yet
consumed part of `seq`, with `i` tracking the Python index; `seq[i]` out of
range is IndexError (`none`). -/
def flat_window_fill (n : Nat) : List (List Message) → List Message → Nat →
    Option (List Message × Nat)
  | [], result, i => if result.length < n then none else some (result, i)
  | g :: rest', result, i =>
      if result.length < n then flat_window_fill n rest' (result ++ g) (i + 1)
      else some (result, i)

/-- The steady-state loop of `flat_window` (lines 262-266):
`result = result[len(elem):] + elem`, yielding `(len(elem), result)`. -/
def flat_window_rest (result : List Message) : List (List Message) →
    List (Nat × List Message)
  | [] => []
  | elem :: rest =>
      (elem.length, result.drop elem.length ++ elem) ::
        flat_window_rest (result.drop elem.length ++ elem) rest

/-- `flat_window` (lines 249-266); the generator is modelled as the list of
its yields.  `result[-n:]` is the last `n` elements (the whole list for
`n = 0`).  `seq[i - 1]` is total-subtraction indexing; `i = 0` there is
possible only when `n = 0` (Python would then index from the back), which
never occurs since the only call site passes `n = LINES_ON_SCREEN`. -/
def flat_window (seq : List (List Message)) (n : Nat) :
    Option (List (Nat × List Message)) := do
  let (result, i) ← flat_window_fill n seq [] 0
  match seq[i - 1]? with
  | none => none
  | some last_g =>
    let result' := if n = 0 then result else result.drop (result.length - n)
    pure ((last_g.length, result') :: flat_window_rest result' (seq.drop i))

/-- The blank-line padding prepended in `get_output_lines` (line 274). -/
def pad_message : Message := ⟨pystr "0:00:00.00", pystr " "⟩

def padding : List (List Message) := List.replicate LINES_ON_SCREEN [pad_message]

/-- `"01:37:23.00"`, the fixed closing timestamp of `get_output_lines`
(line 285). -/
def closing_time : Str := pystr "01:37:23.00"

/-- The `end_time` computation of `get_output_lines` (lines 282-285):
`windows[i + 1][1][-1].sent_time`, where an IndexError (no next window, or
an empty chunk) yields the fixed closing timestamp. -/
def window_end_time (windows : List (Nat × List Message)) (i : Nat) : Str :=
  match windows[i + 1]? with
  | some w =>
    match w.2.getLast? with
    | some m => m.sent_time
    | none => closing_time
  | none => closing_time

/-- The `begin_time` computation of `get_output_lines` (line 280):
`message_chunk[-1].sent_time`; an empty chunk is IndexError (`none`). -/
def window_begin_time (windows : List (Nat × List Message)) (i : Nat) : Option Str := do
  let w ← windows[i]?
  let m ← w.2.getLast?
  pure m.sent_time

/-- Python `chunk[:-k]` (line 290): for `k = 0` this is `chunk[:0] = []`. -/
def py_slice_upto_neg (l : List Message) (k : Nat) : List Message :=
  if k = 0 then [] else l.take (l.length - k)

/-- Python `chunk[-k:]` (line 293): for `k = 0` this is the whole list. -/
def py_slice_from_neg (l : List Message) (k : Nat) : List Message :=
  if k = 0 then l else l.drop (l.length - k)

/-- The body of the `get_output_lines` loop (lines 279-294) for window `i`:
one all-but-bottom cue followed by the faded cues, all sharing the same
begin and end times. -/
def emit_window (windows : List (Nat × List Message)) (i : Nat) : Option (List Str) := do
  let w ← windows[i]?
  let m ← w.2.getLast?
  pure (format_all_but_bottom (py_slice_upto_neg w.2 w.1) m.sent_time
      (window_end_time windows i) ::
    format_faded_messages (py_slice_from_neg w.2 w.1) m.sent_time
      (window_end_time windows i))

theorem fill_padded (groups : List (List Message)) :
    ∀ (m : Nat) (result : List Message) (i : Nat),
      result.length + m = LINES_ON_SCREEN →
      flat_window_fill LINES_ON_SCREEN (List.replicate m [pad_message] ++ groups)
        result i =
      some (result ++ List.replicate m pad_message, i + m) := by
  intro m
  induction m with
  | zero =>
    intro result i hlen
    simp only [Nat.add_zero] at hlen
    simp only [List.replicate_zero, List.nil_append]
    cases groups with
    | nil => rw [flat_window_fill, if_neg (by omega)]; simp
    | cons g gs => rw [flat_window_fill, if_neg (by omega)]; simp
  | succ m ih =>
    intro result i hlen
    simp only [List.replicate_succ, List.cons_append]
    rw [flat_window_fill]
    rw [if_pos (by omega)]
    have := ih (result ++ [pad_message]) (i + 1) (by simp; omega)
    rw [this]
    simp only [List.append_assoc, List.singleton_append, Option.some.injEq]
    have harith : i + 1 + m = i + (m + 1) := by omega
    rw [harith]

theorem flat_window_padded (groups : List (List Message)) :
    flat_window (padding ++ groups) LINES_ON_SCREEN =
      some ((1, List.replicate LINES_ON_SCREEN pad_message) ::
        flat_window_rest (List.replicate LINES_ON_SCREEN pad_message) groups) := by
  have hfill := fill_padded groups LINES_ON_SCREEN [] 0 (by simp)
  simp only [List.nil_append, Nat.zero_add] at hfill
  have hpad : padding = List.replicate LINES_ON_SCREEN [pad_message] := rfl
  rw [flat_window, hpad, hfill]
  have hidx : (List.replicate LINES_ON_SCREEN [pad_message] ++
      groups)[LINES_ON_SCREEN - 1]? = some [pad_message] := by
    rw [List.getElem?_append_left (by simp [LINES_ON_SCREEN])]
    exact List.getElem?_replicate_of_lt (by norm_num [LINES_ON_SCREEN])
  simp only [Option.bind_eq_bind, Option.some_bind, hidx]
  have hdrop : (List.replicate LINES_ON_SCREEN pad_message).drop
      ((List.replicate LINES_ON_SCREEN pad_message).length - LINES_ON_SCREEN) =
      List.replicate LINES_ON_SCREEN pad_message := by simp
  rw [if_neg (by norm_num [LINES_ON_SCREEN]), hdrop,
    List.drop_left' (by simp : (List.replicate LINES_ON_SCREEN [pad_message]).length =
      LINES_ON_SCREEN)]
  simp [List.length_replicate]

theorem flat_window_rest_len :
    ∀ (gs : List (List Message)) (result : List Message) (n : Nat),
      result.length = n → (∀ g ∈ gs, g.length ≤ n) →
      ∀ w ∈ flat_window_rest result gs, w.2.length = n := by
  intro gs
  induction gs with
  | nil => intro result n _ _ w hw; simp [flat_window_rest] at hw
  | cons g gs' ih =>
    intro result n hres hbound w hw
    rw [flat_window_rest] at hw
    rcases List.mem_cons.mp hw with hw | hw
    · subst hw
      simp only [List.length_append, List.length_drop, hres]
      have := hbound g (List.mem_cons_self _ _)
      omega
    · refine ih (result.drop g.length ++ g) n ?_ ?_ w hw
      · simp only [List.length_append, List.length_drop, hres]
        have := hbound g (List.mem_cons_self _ _)
        omega
      · intro g' hg'
        exact hbound g' (List.mem_cons_of_mem _ hg')

/-- C4 (amended): for every input sequence of line groups EACH OF SIZE AT
MOST `LINES_ON_SCREEN`, the sliding-window fold over the padded groups
succeeds and every produced window holds exactly `LINES_ON_SCREEN` lines. -/
theorem C4_window_size (groups : List (List Message))
    (hbound : ∀ g ∈ groups, g.length ≤ LINES_ON_SCREEN) :
    ∃ ws, flat_window (padding ++ groups) LINES_ON_SCREEN = some ws ∧
      ∀ w ∈ ws, w.2.length = LINES_ON_SCREEN := by
  refine ⟨_, flat_window_padded groups, ?_⟩
  intro w hw
  rcases List.mem_cons.mp hw with hw | hw
  · subst hw
    simp
  · exact flat_window_rest_len groups _ LINES_ON_SCREEN (by simp) hbound w hw

def big_group : List Message := List.replicate 25 ⟨pystr "0:00:00.00", pystr "x"⟩

/-- C4 counterexample: a single non-empty 25-line group (a long wrapped
record) padded as in `get_output_lines` produces a second window holding 25
lines, not `LINES_ON_SCREEN = 24` — the claimed invariant fails for inputs
with a group larger than the screen. -/
theorem C4_counterexample :
    (flat_window (padding ++ [big_group]) LINES_ON_SCREEN).map
      (fun ws => ws.map (fun w => w.2.length)) = some [24, 25] ∧ (25 : Nat) ≠ 24 := by
  constructor
  · rfl
  · decide

/-- C5: within the `get_output_lines` loop, the end time of the cues of
window `i` equals the begin time of the cues of window `i + 1` whenever a
successor window exists, and the final window's end time is the fixed
closing timestamp `"01:37:23.00"`. -/
theorem C5_cue_contiguity (windows : List (Nat × List Message)) (i : Nat)
    (hne : ∀ w ∈ windows, w.2 ≠ []) :
    (i + 1 < windows.length →
      some (window_end_time windows i) = window_begin_time windows (i + 1)) ∧
    (i + 1 = windows.length → window_end_time windows i = closing_time) := by
  constructor
  · intro hlt
    obtain ⟨w, hw⟩ : ∃ w, windows[i + 1]? = some w := by
      cases hq : windows[i + 1]? with
      | none =>
        rw [List.getElem?_eq_none_iff] at hq
        omega
      | some w => exact ⟨w, rfl⟩
    have hmem : w ∈ windows := List.mem_iff_getElem?.mpr ⟨i + 1, hw⟩
    obtain ⟨m, hm⟩ : ∃ m, w.2.getLast? = some m :=
      Option.isSome_iff_exists.mp (List.getLast?_isSome.mpr (hne w hmem))
    simp [window_end_time, window_begin_time, hw, hm]
  · intro heq
    have hnone : windows[i + 1]? = none := List.getElem?_eq_none (by omega)
    simp [window_end_time, hnone]

/-- C6 counterexample: a step that introduces `k = 1` new line renders the
single faded entry (entry `j = 1` of `k = 1` from the bottom) with 23
blank-line-heights of padding (`LINES_ON_SCREEN - j`), not the claimed
`k - j = 0`. -/
theorem C6_counterexample :
    format_faded_messages [⟨pystr "0:00:00.00", pystr "x"⟩] (pystr "b") (pystr "e") =
      [common_line_beginning (pystr "b") (pystr "e") ++ fade_tag ++
        strMul (pystr " \\N") 23 ++ pystr "x"] ∧
    format_faded_messages [⟨pystr "0:00:00.00", pystr "x"⟩] (pystr "b") (pystr "e") ≠
      [common_line_beginning (pystr "b") (pystr "e") ++ fade_tag ++
        strMul (pystr " \\N") (1 - 1) ++ pystr "x"] := by
  constructor
  · rfl
  · decide

/-- C6 (amended): a window step with chunk of size `LINES_ON_SCREEN` that
introduces `1 ≤ k ≤ LINES_ON_SCREEN` new lines emits one unfaded
all-but-bottom region holding the `LINES_ON_SCREEN - k` oldest lines and
one faded region of the `k` newest lines, in which entry `j` of `k`
counted from the bottom (list index `i' = k - j`) carries exactly
`LINES_ON_SCREEN - j` blank-line-heights of vertical padding — not
`k - j`. -/
theorem C6_faded_regions (windows : List (Nat × List Message)) (i k : Nat)
    (chunk : List Message) (lastm : Message)
    (hw : windows[i]? = some (k, chunk))
    (hlen : chunk.length = LINES_ON_SCREEN)
    (hk1 : 1 ≤ k) (hk : k ≤ LINES_ON_SCREEN)
    (hlast : chunk.getLast? = some lastm) :
    emit_window windows i =
      some (format_all_but_bottom (chunk.take (LINES_ON_SCREEN - k)) lastm.sent_time
          (window_end_time windows i) ::
        format_faded_messages (chunk.drop (LINES_ON_SCREEN - k)) lastm.sent_time
          (window_end_time windows i)) ∧
    (chunk.take (LINES_ON_SCREEN - k)).length = LINES_ON_SCREEN - k ∧
    (chunk.drop (LINES_ON_SCREEN - k)).length = k ∧
    (∀ (j : Nat) (m : Message),
      (chunk.drop (LINES_ON_SCREEN - k))[j]? = some m →
      (format_faded_messages (chunk.drop (LINES_ON_SCREEN - k)) lastm.sent_time
          (window_end_time windows i))[j]? =
        some (common_line_beginning lastm.sent_time (window_end_time windows i) ++
          fade_tag ++ strMul (pystr " \\N") (LINES_ON_SCREEN - (k - j)) ++ m.text)) := by
  have hup : py_slice_upto_neg chunk k = chunk.take (LINES_ON_SCREEN - k) := by
    rw [py_slice_upto_neg, if_neg (by omega), hlen]
  have hfrom : py_slice_from_neg chunk k = chunk.drop (LINES_ON_SCREEN - k) := by
    rw [py_slice_from_neg, if_neg (by omega), hlen]
  have hdlen : (chunk.drop (LINES_ON_SCREEN - k)).length = k := by
    simp only [List.length_drop, hlen]
    omega
  refine ⟨?_, ?_, hdlen, ?_⟩
  · rw [emit_window, hw]
    simp only [Option.bind_eq_bind, Option.some_bind, hlast, hup, hfrom]
    rfl
  · simp only [List.length_take, hlen]
    omega
  · intro j m hj
    rw [format_faded_messages, List.getElem?_mapIdx, hj, hdlen]
    rfl

/-- Python `str.split(c)` on a single separator character, keeping empty
chunks (joining the chunks with the separator is the inverse). -/
def splitOnC (c : Char) : Str → List Str
  | [] => [[]]
  | a :: rest =>
      let r := splitOnC c rest
      if a = c then [] :: r
      else (a :: r.headI) :: r.tail

/-- Python `c.join(chunks)` for a single-character separator. -/
def joinWithC (c : Char) : List Str → Str
  | [] => []
  | [x] => x
  | x :: y :: rest => x ++ c :: joinWithC c (y :: rest)

theorem splitOnC_ne_nil (c : Char) : ∀ s : Str, splitOnC c s ≠ []
  | [] => by simp [splitOnC]
  | a :: rest => by
      simp only [splitOnC]
      split <;> simp

theorem joinWithC_splitOnC (c : Char) : ∀ s : Str, joinWithC c (splitOnC c s) = s := by
  intro s
  induction s with
  | nil => rfl
  | cons a rest ih =>
    rw [splitOnC]
    cases hr : splitOnC c rest with
    | nil => exact absurd hr (splitOnC_ne_nil c rest)
    | cons h t =>
      rw [hr] at ih
      by_cases hac : a = c
      · rw [if_pos hac, hac]
        simp only [joinWithC]
        rw [List.nil_append, ih]
      · rw [if_neg hac]
        simp only [List.headI, List.tail]
        cases t with
        | nil =>
          simp only [joinWithC] at ih ⊢
          rw [ih]
        | cons y t' =>
          simp only [joinWithC] at ih ⊢
          rw [List.cons_append, ih]

/-- Whether a string contains the two-character sequence `"]]"`. -/
def hasJJ : Str → Bool
  | [] => false
  | [_] => false
  | a :: b :: rest => (decide (a = ']') && decide (b = ']')) || hasJJ (b :: rest)

/-- Python `str.replace(pat, rep)` for a non-empty pattern: scan left to
right, replacing each non-overlapping occurrence.  Structural recursion on
a fuel bounded by the string length (each step consumes at least one
character, so `fuel = s.length` is exact). -/
def pyReplaceF (pat rep : Str) : Nat → Str → Str
  | _, [] => []
  | 0, s => s
  | fuel + 1, a :: rest =>
      if pat ≠ [] ∧ pat <+: (a :: rest) then
        rep ++ pyReplaceF pat rep fuel (rest.drop (pat.length - 1))
      else a :: pyReplaceF pat rep fuel rest

def pyReplace (pat rep s : Str) : Str := pyReplaceF pat rep s.length s

/-- The greedy fill loop of the wrap model: accumulate words into the
current line while the budget allows (line length counts the joining
spaces), otherwise start a new line whose budget is the continuation
budget `wc`. -/
def fillLines (wc : Nat) : Str → Nat → List Str → List Str
  | cur, _, [] => [cur]
  | cur, budget, w :: ws =>
      if cur.length + 1 + w.length ≤ budget then
        fillLines wc (cur ++ ' ' :: w) budget ws
      else cur :: fillLines wc w wc ws

/-- Modelled from the spec: `textwrap.wrap(text, width, subsequent_indent)`
(Python standard library, not repository code) as the spec describes it —
greedy word wrap of the space-separated words to `width` display columns,
continuation lines prefixed by the indent marker whose charged width is
`indentLen` (the source passes `InsaneHack("\\h\\h")`, a four-character
marker whose `len()` is 2).  Library details not modelled: breaking of
words longer than the width and breaking at hyphens. -/
def textwrap_wrap (text : Str) (width : Nat) (indent : Str) (indentLen : Nat) :
    List Str :=
  match (splitOnC ' ' text).filter (fun w => !w.isEmpty) with
  | [] => []
  | w :: ws =>
    match fillLines (width - indentLen) w width ws with
    | [] => []
    | l :: ls => l :: ls.map (fun x => indent ++ x)

/-- Strip the continuation-indent marker from every line after the first. -/
def strip_continuations (indent : Str) : List Str → List Str
  | [] => []
  | l :: ls => l :: ls.map (fun x => x.drop indent.length)

theorem fillLines_ne_nil (wc : Nat) :
    ∀ (ws : List Str) (cur : Str) (budget : Nat), fillLines wc cur budget ws ≠ [] := by
  intro ws
  induction ws with
  | nil => intro cur budget; simp [fillLines]
  | cons w ws' ih =>
    intro cur budget
    rw [fillLines]
    split
    · exact ih _ _
    · simp

theorem joinWithC_merge (c : Char) (x y : Str) :
    ∀ zs : List Str, joinWithC c ((x ++ c :: y) :: zs) = joinWithC c (x :: y :: zs) := by
  intro zs
  cases zs with
  | nil => simp [joinWithC]
  | cons z zs' => simp [joinWithC]

theorem fillLines_join (wc : Nat) :
    ∀ (ws : List Str) (cur : Str) (budget : Nat),
      joinWithC ' ' (fillLines wc cur budget ws) = joinWithC ' ' (cur :: ws) := by
  intro ws
  induction ws with
  | nil => intro cur budget; rfl
  | cons w ws' ih =>
    intro cur budget
    rw [fillLines]
    split
    · rw [ih (cur ++ ' ' :: w) budget, joinWithC_merge]
    · cases hfl : fillLines wc w wc ws' with
      | nil => exact absurd hfl (fillLines_ne_nil wc ws' w wc)
      | cons l ls =>
        have := ih w wc
        rw [hfl] at this
        simp only [joinWithC]
        rw [this]

/-- C7: for a record text whose space-separated chunks are all non-empty
(no leading, trailing or doubled spaces) and all fit in the continuation
width, wrapping and then rejoining the lines with the continuation-indent
marker stripped reproduces the original text exactly. -/
theorem C7_wrap_roundtrip (text : Str)
    (hno : ∀ w ∈ splitOnC ' ' text, w ≠ [] ∧ w.length ≤ MAX_LINE_LENGTH - 2) :
    joinWithC ' ' (strip_continuations (pystr "\\h\\h")
      (textwrap_wrap text MAX_LINE_LENGTH (pystr "\\h\\h") 2)) = text := by
  have hfilter : (splitOnC ' ' text).filter (fun w => !w.isEmpty) = splitOnC ' ' text := by
    rw [List.filter_eq_self]
    intro w hw
    simp [List.isEmpty_iff, (hno w hw).1]
  cases hs : splitOnC ' ' text with
  | nil => exact absurd hs (splitOnC_ne_nil ' ' text)
  | cons w ws =>
    cases hfl : fillLines (MAX_LINE_LENGTH - 2) w MAX_LINE_LENGTH ws with
    | nil => exact absurd hfl (fillLines_ne_nil _ ws w _)
    | cons l ls =>
      have hfilter' : List.filter (fun v => !List.isEmpty v) (w :: ws) = w :: ws := by
        rw [← hs]
        exact hfilter
      have hwrap : textwrap_wrap text MAX_LINE_LENGTH (pystr "\\h\\h") 2 =
          l :: ls.map (fun x => pystr "\\h\\h" ++ x) := by
        simp only [textwrap_wrap, hs, hfilter', hfl]
      have hmapstrip : (ls.map (fun x => pystr "\\h\\h" ++ x)).map
          (fun x => x.drop (pystr "\\h\\h").length) = ls := by
        rw [List.map_map]
        have hcomp : ((fun x => x.drop (pystr "\\h\\h").length) ∘
            (fun x => pystr "\\h\\h" ++ x)) = id := by
          funext x
          simp [List.drop_left]
        rw [hcomp, List.map_id]
      rw [hwrap]
      simp only [strip_continuations]
      rw [hmapstrip]
      have hjoin := fillLines_join (MAX_LINE_LENGTH - 2) ws w MAX_LINE_LENGTH
      rw [hfl] at hjoin
      rw [hjoin]
      have hsplit := joinWithC_splitOnC ' ' text
      rw [hs] at hsplit
      exact hsplit

/-- Python `hex(n)[2:]`: lowercase hex digits, no zero padding. -/
def hexStr (n : Nat) : Str := Nat.toDigits 16 n

/-- `rgb_to_ass_tag` (lines 32-36). -/
def rgb_to_ass_tag (r g b : Nat) : Str :=
  pystr "\x7b\\c&H" ++ hexStr b ++ hexStr g ++ hexStr r ++ pystr "&\x7d"

def ELECTROLATE : Str := rgb_to_ass_tag 26 187 243

def SCUD : Str := rgb_to_ass_tag 241 196 15

def MOXIE : Str := rgb_to_ass_tag 255 226 227

def MODS : Str := rgb_to_ass_tag 32 95 112

def PRISONER : Str := rgb_to_ass_tag 46 192 87

def TMH : Str := rgb_to_ass_tag 113 82 182

def MINITRUE : Str := rgb_to_ass_tag 43 139 76

/-- `NAME_COLORS` (lines 47-72) as an association list (all keys distinct). -/
def NAME_COLORS : List (Str × Str) := [
  (pystr "BattleToad", ELECTROLATE),
  (pystr "bDwS", ELECTROLATE),
  (pystr "CantHandleMyHandle", ELECTROLATE),
  (pystr "Chud Droopy", MODS),
  (pystr "Clone", ELECTROLATE),
  (pystr "Crunchyeater", PRISONER),
  (pystr "dasty", ELECTROLATE),
  (pystr "Don Haußettler", ELECTROLATE),
  (pystr "duk", MINITRUE),
  (pystr "Gym Slow", PRISONER),
  (pystr "Jammho", ELECTROLATE),
  (pystr "KitKat", ELECTROLATE),
  (pystr "Lamb's Ear", PRISONER),
  (pystr "Lordy", MODS),
  (pystr "Mermaid", ELECTROLATE),
  (pystr "MF", MOXIE),
  (pystr "Poopenheimer", ELECTROLATE),
  (pystr "Quate", PRISONER),
  (pystr "sling", SCUD),
  (pystr "spaghetti squash", ELECTROLATE),
  (pystr "Spicy Deluxe", ELECTROLATE),
  (pystr "teratoma jones", ELECTROLATE),
  (pystr "tmh", TMH),
  (pystr "Toner Martini", ELECTROLATE)]

/-- `NAME_REPLACEMENTS` (lines 25-29): empty (anonymized). -/
def NAME_REPLACEMENTS : List (Str × Str) := []

/-- Python `dict[key]` over the association list; a missing key is a
KeyError (`none`). -/
def lookupStr (table : List (Str × Str)) (key : Str) : Option Str :=
  (table.find? (fun p => decide (p.1 = key))).map (fun p => p.2)

def text_white_reset : Str := pystr "\x7b\\c&HFFFFFF&\x7d"

/-- Python `s[1:-1]`. -/
def pyStrip1 (s : Str) : Str := (s.drop 1).dropLast

/-- The 6-field unpacking of `line.split(";")` (lines 210 and 241); any
other field count is a ValueError (`none`). -/
def record_fields (line : Str) : Option (Str × Str × Str × Str × Str × Str) :=
  match splitOnC ';' line with
  | [a, b, c, d, e, f] => some (a, b, c, d, e, f)
  | _ => none

/-- The author processing of `get_messages_from_line` (lines 213-216): strip
the surrounding quotes, truncate at `"#"` (`author.index("#")` raises —
`none` — when absent), apply `NAME_REPLACEMENTS`. -/
def record_author (line : Str) : Option Str := do
  let fields ← record_fields line
  let a0 := pyStrip1 fields.1
  let idx ← a0.findIdx? (fun c => decide (c = '#'))
  let author := a0.take idx
  pure ((lookupStr NAME_REPLACEMENTS author).getD author)

/-- The quoted-text field of a record. -/
def record_quoted (line : Str) : Option Str :=
  (record_fields line).map (fun f => f.2.2.1)

/-- `get_messages_from_line` (lines 209-235): build `"author: text"`,
unescape doubled quotes, substitute the clap emoji by the `"]]"` sentinel,
wrap, substitute back per wrapped line, then give the first line its color
markup (`NAME_COLORS[author]` KeyError is `none`, as is `messages[0]` on an
empty wrap). -/
def get_messages_from_line (line : Str) : Option (List Message) := do
  let fields ← record_fields line
  let sent_time ← convert_message_timestamp_to_subtitle_time (pyStrip1 fields.2.1)
  let author ← record_author line
  let text := author ++ pystr ": " ++ pyStrip1 fields.2.2.1
  let text2 := pyReplace (pystr "\"\"") (pystr "\"") text
  let insane_hack_text := pyReplace (pystr "👏") (pystr "]]") text2
  let contents := textwrap_wrap insane_hack_text MAX_LINE_LENGTH (pystr "\\h\\h") 2
  let messages := contents.map (fun content =>
    Message.mk sent_time (pyReplace (pystr "]]") (pystr "👏") content))
  match messages with
  | [] => none
  | m0 :: rest =>
      (lookupStr NAME_COLORS author).map (fun color =>
        Message.mk m0.sent_time
          (pyReplace (author ++ pystr ": ")
            (color ++ author ++ pystr ": " ++ text_white_reset) m0.text) :: rest)

/-- `get_messages_in_file` (lines 238-246) over an abstract transcript (the
CSV file contents are an external input): records whose quoted text is
exactly `""` (attachment only) are skipped; every other record is
converted, any failure aborting the whole run. -/
def get_messages_in_file : List Str → Option (List (List Message))
  | [] => some []
  | line :: rest =>
      match record_fields line with
      | none => none
      | some fields =>
          if fields.2.2.1 = pystr "\"\"" then get_messages_in_file rest
          else do
            let ms ← get_messages_from_line line
            let tail ← get_messages_in_file rest
            pure (ms :: tail)

/-- `get_output_lines` (lines 269-296) over the abstract transcript. -/
def get_output_lines (input : List Str) : Option (List Str) := do
  let msgs ← get_messages_in_file input
  let windows ← flat_window (padding ++ msgs) LINES_ON_SCREEN
  let pieces ← (List.range windows.length).mapM (emit_window windows)
  pure pieces.flatten

/-- `main` (lines 299-306): ALL cue computation (`get_output_lines()`)
happens before the output file is opened, so an error (`none`) aborts with
no output written at all; on success the content written after the static
header template (an external input) is the joined cue lines. -/
def main_output (input : List Str) : Option Str :=
  (get_output_lines input).map (fun lines => List.intercalate (pystr "\n") lines)

/-- Refinement reference for C8, following the spec's words: render the
mapped time at true hundredth-of-a-second precision `HH:MM:SS.ss`,
including a non-zero fractional-second component. -/
def fmtHMS_hundredths (v : Int) : Str :=
  let c : Nat := (v.emod 8640000).toNat
  pad2 (c / 100 / 3600) ++ ':' :: pad2 (c / 100 % 3600 / 60) ++ ':' ::
    pad2 (c / 100 % 60) ++ '.' :: pad2 (c % 100)

/-- C8 counterexample: the raw timestamp `"04:31:00"` maps to 158810
centiseconds (= 00:26:28.10, a non-zero fractional-second component arising
from the fractional snip durations), yet the code renders `"00:26:28.00"`
— the fraction is discarded and a literal `".00"` appended — instead of
the hundredths rendering `"00:26:28.10"` the claim requires. -/
theorem C8_counterexample :
    convert_message_timestamp_to_subtitle_time (pystr "04:31:00") =
      some (pystr "00:26:28.00") ∧
    (do
      let absolutes ← convert_crumbles_to_absolute
      snip_adjust absolutes ((16260 : Int) * 100 - chat_offset_centi)) =
        some (158810 : Int) ∧
    fmtHMS_hundredths 158810 = pystr "00:26:28.10" ∧
    pystr "00:26:28.00" ≠ pystr "00:26:28.10" := by
  refine ⟨by decide, by decide, by decide, by decide⟩

/-- C8 (amended): the rendered output is the mapped time truncated to whole
seconds in `HH:MM:SS` form with a LITERAL `".00"` suffix — an 11-character
string always ending in `".00"` — so fractional centiseconds are never
rendered. -/
theorem C8_format_literal (ts : Str) (secs : Nat)
    (absolutes : List (Int × Int × Int)) (v : Int)
    (hp : parseHMS ts = some secs)
    (ha : convert_crumbles_to_absolute = some absolutes)
    (hv : snip_adjust absolutes ((secs : Int) * 100 - chat_offset_centi) = some v) :
    convert_message_timestamp_to_subtitle_time ts = some (fmtHMS00 v) ∧
    (fmtHMS00 v).length = 11 ∧ (fmtHMS00 v).drop 8 = pystr ".00" := by
  refine ⟨?_, rfl, rfl⟩
  simp only [convert_message_timestamp_to_subtitle_time, hp, ha, hv,
    Option.bind_eq_bind, Option.some_bind]
  rfl

/-- C9: an input record (not skipped as attachment-only) whose processed
author has no entry in the color table makes `get_messages_from_line` fail,
and therefore the whole run aborts before anything is written: the output
content is `none` — no partial output file. -/
theorem C9_missing_color_aborts (input : List Str) (line author q : Str)
    (hmem : line ∈ input)
    (hq : record_quoted line = some q) (hqne : q ≠ pystr "\"\"")
    (ha : record_author line = some author)
    (hcolor : lookupStr NAME_COLORS author = none) :
    get_messages_from_line line = none ∧ main_output input = none := by
  obtain ⟨fields, hf⟩ : ∃ f, record_fields line = some f := by
    cases hrf : record_fields line with
    | none => rw [record_quoted, hrf] at hq; simp at hq
    | some f => exact ⟨f, rfl⟩
  have hqf : fields.2.2.1 = q := by
    rw [record_quoted, hf] at hq
    simpa using hq
  have hline : get_messages_from_line line = none := by
    rw [get_messages_from_line]
    simp only [hf, Option.bind_eq_bind, Option.some_bind]
    cases hsent : convert_message_timestamp_to_subtitle_time (pyStrip1 fields.2.1) with
    | none => simp
    | some sent =>
      simp only [Option.some_bind, ha]
      split
      · rfl
      · rw [hcolor]
        simp
  refine ⟨hline, ?_⟩
  have hfile : get_messages_in_file input = none := by
    induction input with
    | nil => cases hmem
    | cons l rest ih =>
      rcases List.mem_cons.mp hmem with h | h
      · subst h
        simp only [get_messages_in_file, hf]
        rw [if_neg (by rw [hqf]; exact hqne)]
        simp [hline]
      · have hrest := ih h
        simp only [get_messages_in_file]
        split
        · rfl
        · split
          · exact hrest
          · cases get_messages_from_line l <;> simp [hrest]
  simp [main_output, get_output_lines, hfile]

theorem hasJJ_append :
    ∀ (a b : Str), hasJJ (a ++ b) = true ↔
      hasJJ a = true ∨ hasJJ b = true ∨
        (a.getLast? = some ']' ∧ b.head? = some ']') := by
  intro a
  induction a with
  | nil => intro b; simp [hasJJ]
  | cons x a' ih =>
    intro b
    cases a' with
    | nil =>
      cases b with
      | nil => simp [hasJJ]
      | cons y b' =>
        simp only [List.singleton_append, hasJJ, List.getLast?_singleton,
          List.head?_cons, Bool.or_eq_true, Bool.and_eq_true, decide_eq_true_eq,
          Option.some.injEq]
        constructor
        · intro h
          rcases h with ⟨h1, h2⟩ | h
          · exact Or.inr (Or.inr ⟨h1, h2⟩)
          · exact Or.inr (Or.inl h)
        · intro h
          rcases h with h | h | ⟨h1, h2⟩
          · simp [hasJJ] at h
          · exact Or.inr h
          · exact Or.inl ⟨h1, h2⟩
    | cons x' a'' =>
      simp only [List.cons_append, hasJJ, List.getLast?_cons_cons, Bool.or_eq_true,
        Bool.and_eq_true, decide_eq_true_eq]
      simp only [List.append_eq]
      rw [← List.cons_append, ih b]
      tauto

theorem hasJJ_append_right {a b : Str} (h : hasJJ b = true) : hasJJ (a ++ b) = true :=
  (hasJJ_append a b).mpr (Or.inr (Or.inl h))

theorem hasJJ_append_left {a b : Str} (h : hasJJ a = true) : hasJJ (a ++ b) = true :=
  (hasJJ_append a b).mpr (Or.inl h)

theorem mem_of_hasJJ : ∀ (s : Str), hasJJ s = true → ']' ∈ s := by
  intro s
  induction s with
  | nil => intro h; simp [hasJJ] at h
  | cons a rest ih =>
    intro h
    cases rest with
    | nil => simp [hasJJ] at h
    | cons b r' =>
      simp only [hasJJ, Bool.or_eq_true, Bool.and_eq_true, decide_eq_true_eq] at h
      rcases h with ⟨ha, _⟩ | h
      · rw [ha]
        exact List.mem_cons_self _ _
      · exact List.mem_cons_of_mem _ (ih h)

theorem hasJJ_eq_false_of_not_mem {s : Str} (h : ']' ∉ s) : hasJJ s = false := by
  cases hb : hasJJ s
  · rfl
  · exact absurd (mem_of_hasJJ s hb) h

theorem nojj_append_of_head {a b : Str} (ha : hasJJ a = false) (hb : hasJJ b = false)
    (hh : b.head? ≠ some ']') : hasJJ (a ++ b) = false := by
  cases hj : hasJJ (a ++ b)
  · rfl
  · exfalso
    rcases (hasJJ_append a b).mp hj with h | h | ⟨h1, h2⟩
    · rw [ha] at h
      simp at h
    · rw [hb] at h
      simp at h
    · exact hh h2

theorem nojj_append_of_last {a b : Str} (ha : hasJJ a = false) (hb : hasJJ b = false)
    (hl : a.getLast? ≠ some ']') : hasJJ (a ++ b) = false := by
  cases hj : hasJJ (a ++ b)
  · rfl
  · exfalso
    rcases (hasJJ_append a b).mp hj with h | h | ⟨h1, h2⟩
    · rw [ha] at h
      simp at h
    · rw [hb] at h
      simp at h
    · exact hl h1

theorem mem_of_head?_eq_some {s : Str} {c : Char} (h : s.head? = some c) : c ∈ s := by
  cases s with
  | nil => simp at h
  | cons a rest =>
    simp only [List.head?_cons, Option.some.injEq] at h
    rw [← h]
    exact List.mem_cons_self _ _

theorem prefix_decomp {pat : Str} {a : Char} {rest : Str} (hne : pat ≠ [])
    (hp : pat <+: (a :: rest)) :
    ∃ t, a :: rest = pat ++ t ∧ rest.drop (pat.length - 1) = t := by
  obtain ⟨t, ht⟩ := hp
  refine ⟨t, ht.symm, ?_⟩
  cases pat with
  | nil => exact absurd rfl hne
  | cons p p' =>
    have h2 : p' ++ t = rest := by
      rw [List.cons_append] at ht
      injection ht with _ h2
    have hlen : (p :: p').length - 1 = p'.length := by simp
    rw [hlen, ← h2, List.drop_left]

theorem pyReplaceF_nil (pat rep : Str) (f : Nat) : pyReplaceF pat rep f [] = [] := by
  cases f <;> rfl

theorem pyReplaceF_head (pat rep : Str) (hrep : rep ≠ []) :
    ∀ (f : Nat) (b : Char) (r' : Str),
      (pyReplaceF pat rep f (b :: r')).head? = some b ∨
      ((pyReplaceF pat rep f (b :: r')).head? = rep.head? ∧ pat <+: (b :: r')) := by
  intro f b r'
  cases f with
  | zero => left; rfl
  | succ f' =>
    rw [pyReplaceF]
    split
    · rename_i hcond
      right
      refine ⟨?_, hcond.2⟩
      rw [List.head?_append]
      cases rep with
      | nil => exact absurd rfl hrep
      | cons c cs => rfl
    · left
      rfl

theorem pyReplaceF_mem {c : Char} (pat rep : Str) :
    ∀ (f : Nat) (s : Str), c ∈ s → c ∉ pat → c ∈ pyReplaceF pat rep f s := by
  intro f
  induction f with
  | zero =>
    intro s hc _
    cases s with
    | nil => cases hc
    | cons a rest => exact hc
  | succ f ih =>
    intro s hc hcp
    cases s with
    | nil => cases hc
    | cons a rest =>
      rw [pyReplaceF]
      split
      · rename_i hcond
        obtain ⟨t, hts, hdrop⟩ := prefix_decomp hcond.1 hcond.2
        rw [hdrop]
        rw [hts] at hc
        rcases List.mem_append.mp hc with h | h
        · exact absurd h hcp
        · exact List.mem_append_right _ (ih t h hcp)
      · rcases List.mem_cons.mp hc with h | h
        · rw [h]
          exact List.mem_cons_self _ _
        · exact List.mem_cons_of_mem _ (ih rest h hcp)

theorem pyReplaceF_clap_mem :
    ∀ (f : Nat) (s : Str), s.length ≤ f → hasJJ s = true →
      '👏' ∈ pyReplaceF (pystr "]]") (pystr "👏") f s := by
  intro f
  induction f with
  | zero =>
    intro s hf hs
    cases s with
    | nil => simp [hasJJ] at hs
    | cons a rest => simp at hf
  | succ f ih =>
    intro s hf hs
    cases s with
    | nil => simp [hasJJ] at hs
    | cons a rest =>
      rw [pyReplaceF]
      split
      · exact List.mem_append_left _ (by decide)
      · rename_i hcond
        cases rest with
        | nil => simp [hasJJ] at hs
        | cons b r' =>
          simp only [hasJJ, Bool.or_eq_true, Bool.and_eq_true, decide_eq_true_eq] at hs
          rcases hs with ⟨ha, hb⟩ | hs
          · exfalso
            apply hcond
            refine ⟨by decide, ?_⟩
            subst ha
            subst hb
            exact ⟨r', rfl⟩
          · refine List.mem_cons_of_mem _ (ih (b :: r') ?_ hs)
            simp only [List.length_cons] at hf ⊢
            omega

theorem pyReplaceF_clap_nojj :
    ∀ (f : Nat) (s : Str), s.length ≤ f →
      hasJJ (pyReplaceF (pystr "]]") (pystr "👏") f s) = false := by
  intro f
  induction f with
  | zero =>
    intro s hf
    cases s with
    | nil => rfl
    | cons a rest => simp at hf
  | succ f ih =>
    intro s hf
    cases s with
    | nil => rfl
    | cons a rest =>
      rw [pyReplaceF]
      split
      · rename_i hcond
        apply nojj_append_of_last (by decide) ?_ (by decide)
        apply ih
        simp only [List.length_cons] at hf
        have := List.length_drop ((pystr "]]").length - 1) rest
        omega
      · rename_i hcond
        have hX := ih rest (by simp only [List.length_cons] at hf; omega)
        rw [show a :: pyReplaceF (pystr "]]") (pystr "👏") f rest =
            [a] ++ pyReplaceF (pystr "]]") (pystr "👏") f rest from rfl]
        by_cases haj : a = ']'
        · apply nojj_append_of_head
          · rfl
          · exact hX
          · intro hhead
            cases rest with
            | nil =>
              rw [pyReplaceF_nil] at hhead
              simp at hhead
            | cons b r' =>
              rcases pyReplaceF_head (pystr "]]") (pystr "👏") (by decide) f b r'
                with h | ⟨h1, h2⟩
              · rw [h] at hhead
                injection hhead with hb
                apply hcond
                refine ⟨by decide, ?_⟩
                subst haj
                subst hb
                exact ⟨r', rfl⟩
              · rw [h1] at hhead
                exact absurd hhead (by decide)
        · apply nojj_append_of_last
          · rfl
          · exact hX
          · simp [haj]

theorem pyReplaceF_preserves_jj (pat rep : Str) (hpat_ne : pat ≠ [])
    (hrep_ne : rep ≠ []) (hpat : ']' ∉ pat) :
    ∀ (f : Nat) (s : Str), hasJJ s = true →
      hasJJ (pyReplaceF pat rep f s) = true := by
  intro f
  induction f with
  | zero =>
    intro s hs
    cases s with
    | nil => simp [hasJJ] at hs
    | cons a rest => exact hs
  | succ f ih =>
    intro s hs
    cases s with
    | nil => simp [hasJJ] at hs
    | cons a rest =>
      rw [pyReplaceF]
      split
      · rename_i hcond
        obtain ⟨t, hts, hdrop⟩ := prefix_decomp hcond.1 hcond.2
        rw [hdrop]
        have hjt : hasJJ t = true := by
          rw [hts] at hs
          rcases (hasJJ_append pat t).mp hs with h | h | ⟨h1, _⟩
          · rw [hasJJ_eq_false_of_not_mem hpat] at h
            simp at h
          · exact h
          · exact absurd (List.mem_of_getLast?_eq_some h1) hpat
        exact hasJJ_append_right (ih t hjt)
      · rename_i hcond
        cases rest with
        | nil => simp [hasJJ] at hs
        | cons b r' =>
          simp only [hasJJ, Bool.or_eq_true, Bool.and_eq_true, decide_eq_true_eq] at hs
          rcases hs with ⟨ha, hb⟩ | hs
          · subst ha
            subst hb
            rcases pyReplaceF_head pat rep hrep_ne f ']' r' with h | ⟨h1, h2⟩
            · rw [show (']' : Char) :: pyReplaceF pat rep f (']' :: r') =
                  [']'] ++ pyReplaceF pat rep f (']' :: r') from rfl]
              exact (hasJJ_append _ _).mpr (Or.inr (Or.inr ⟨rfl, h⟩))
            · exfalso
              cases pat with
              | nil => exact hpat_ne rfl
              | cons p p' =>
                rw [List.cons_prefix_cons] at h2
                rcases h2 with ⟨hp, _⟩
                subst hp
                exact hpat (List.mem_cons_self _ _)
          · have := ih (b :: r') hs
            rw [show a :: pyReplaceF pat rep f (b :: r') =
                [a] ++ pyReplaceF pat rep f (b :: r') from rfl]
            exact hasJJ_append_right this

theorem pyReplaceF_preserves_nojj (pat rep : Str) (hrep_ne : rep ≠ [])
    (hrep_nojj : hasJJ rep = false) (hrep_head : rep.head? ≠ some ']')
    (hrep_last : rep.getLast? ≠ some ']') :
    ∀ (f : Nat) (s : Str), hasJJ s = false →
      hasJJ (pyReplaceF pat rep f s) = false := by
  intro f
  induction f with
  | zero =>
    intro s hs
    cases s with
    | nil => rfl
    | cons a rest => exact hs
  | succ f ih =>
    intro s hs
    cases s with
    | nil => rfl
    | cons a rest =>
      rw [pyReplaceF]
      split
      · rename_i hcond
        obtain ⟨t, hts, hdrop⟩ := prefix_decomp hcond.1 hcond.2
        rw [hdrop]
        have hnt : hasJJ t = false := by
          cases hjt : hasJJ t
          · rfl
          · exfalso
            rw [hts, hasJJ_append_right hjt] at hs
            simp at hs
        exact nojj_append_of_last hrep_nojj (ih t hnt) hrep_last
      · rename_i hcond
        have hnr : hasJJ rest = false := by
          cases hjr : hasJJ rest
          · rfl
          · exfalso
            rw [show a :: rest = [a] ++ rest from rfl, hasJJ_append_right hjr] at hs
            simp at hs
        have hX := ih rest hnr
        rw [show a :: pyReplaceF pat rep f rest =
            [a] ++ pyReplaceF pat rep f rest from rfl]
        by_cases haj : a = ']'
        · apply nojj_append_of_head
          · rfl
          · exact hX
          · intro hhead
            cases rest with
            | nil =>
              rw [pyReplaceF_nil] at hhead
              simp at hhead
            | cons b r' =>
              rcases pyReplaceF_head pat rep hrep_ne f b r' with h | ⟨h1, h2⟩
              · rw [h] at hhead
                injection hhead with hb
                subst haj
                subst hb
                simp [hasJJ] at hs
              · rw [h1] at hhead
                exact hrep_head hhead
        · apply nojj_append_of_last
          · rfl
          · exact hX
          · simp [haj]

theorem splitOnC_cons (x : Char) (xs : Str) :
    splitOnC ' ' (x :: xs) =
      if x = ' ' then [] :: splitOnC ' ' xs
      else (x :: (splitOnC ' ' xs).headI) :: (splitOnC ' ' xs).tail := by
  rw [splitOnC]

theorem splitOnC_hasJJ :
    ∀ (s : Str), hasJJ s = true → ∃ w ∈ splitOnC ' ' s, hasJJ w = true := by
  intro s
  induction s with
  | nil => intro h; simp [hasJJ] at h
  | cons a rest ih =>
    intro h
    cases rest with
    | nil => simp [hasJJ] at h
    | cons b r' =>
      simp only [hasJJ, Bool.or_eq_true, Bool.and_eq_true, decide_eq_true_eq] at h
      rcases h with ⟨ha, hb⟩ | h
      · subst ha
        subst hb
        refine ⟨']' :: ']' :: (splitOnC ' ' r').headI, ?_, by simp [hasJJ]⟩
        exact List.mem_cons_self _ _
      · obtain ⟨w, hw, hwjj⟩ := ih h
        cases hr : splitOnC ' ' (b :: r') with
        | nil => exact absurd hr (splitOnC_ne_nil ' ' _)
        | cons h0 t0 =>
          rw [hr] at hw
          by_cases hac : a = ' '
          · refine ⟨w, ?_, hwjj⟩
            rw [splitOnC_cons, hr, if_pos hac]
            exact List.mem_cons_of_mem _ hw
          · rcases List.mem_cons.mp hw with hw0 | hw0
            · refine ⟨a :: h0, ?_, ?_⟩
              · rw [splitOnC_cons, hr, if_neg hac]
                simp only [List.headI, List.tail_cons]
                exact List.mem_cons_self _ _
              · rw [show a :: h0 = [a] ++ h0 from rfl]
                exact hasJJ_append_right (hw0 ▸ hwjj)
            · refine ⟨w, ?_, hwjj⟩
              rw [splitOnC_cons, hr, if_neg hac]
              simp only [List.headI, List.tail_cons]
              exact List.mem_cons_of_mem _ hw0

theorem fillLines_hasJJ (wc : Nat) :
    ∀ (ws : List Str) (cur : Str) (budget : Nat),
      (hasJJ cur = true ∨ ∃ w ∈ ws, hasJJ w = true) →
      ∃ l ∈ fillLines wc cur budget ws, hasJJ l = true := by
  intro ws
  induction ws with
  | nil =>
    intro cur budget h
    rcases h with h | ⟨w, hw, _⟩
    · exact ⟨cur, List.mem_singleton_self _, h⟩
    · cases hw
  | cons w ws' ih =>
    intro cur budget h
    rw [fillLines]
    split
    · apply ih
      rcases h with h | ⟨w0, hw0, hjj⟩
      · exact Or.inl (hasJJ_append_left h)
      · rcases List.mem_cons.mp hw0 with h0 | h0
        · subst h0
          refine Or.inl ?_
          rw [show cur ++ ' ' :: w0 = cur ++ ([' '] ++ w0) from rfl]
          exact hasJJ_append_right (hasJJ_append_right hjj)
        · exact Or.inr ⟨w0, h0, hjj⟩
    · rcases h with h | ⟨w0, hw0, hjj⟩
      · exact ⟨cur, List.mem_cons_self _ _, h⟩
      · rcases List.mem_cons.mp hw0 with h0 | h0
        · subst h0
          obtain ⟨l, hl, hljj⟩ := ih w0 wc (Or.inl hjj)
          exact ⟨l, List.mem_cons_of_mem _ hl, hljj⟩
        · obtain ⟨l, hl, hljj⟩ := ih w wc (Or.inr ⟨w0, h0, hjj⟩)
          exact ⟨l, List.mem_cons_of_mem _ hl, hljj⟩

theorem wrap_hasJJ (text : Str) (width indentLen : Nat) (indent : Str)
    (h : hasJJ text = true) :
    ∃ l ∈ textwrap_wrap text width indent indentLen, hasJJ l = true := by
  obtain ⟨w0, hw0, hw0jj⟩ := splitOnC_hasJJ text h
  have hw0ne : w0 ∈ (splitOnC ' ' text).filter (fun w => !w.isEmpty) := by
    rw [List.mem_filter]
    refine ⟨hw0, ?_⟩
    have hne : w0 ≠ [] := by
      intro he
      rw [he] at hw0jj
      simp [hasJJ] at hw0jj
    simp [List.isEmpty_iff, hne]
  cases hfl : (splitOnC ' ' text).filter (fun w => !w.isEmpty) with
  | nil =>
    rw [hfl] at hw0ne
    cases hw0ne
  | cons w ws =>
    cases hfill : fillLines (width - indentLen) w width ws with
    | nil => exact absurd hfill (fillLines_ne_nil _ ws w _)
    | cons l0 ls =>
      have hwrap : textwrap_wrap text width indent indentLen =
          l0 :: ls.map (fun x => indent ++ x) := by
        simp only [textwrap_wrap, hfl, hfill]
      rw [hwrap]
      rw [hfl] at hw0ne
      have hinv : hasJJ w = true ∨ ∃ v ∈ ws, hasJJ v = true := by
        rcases List.mem_cons.mp hw0ne with h0 | h0
        · exact Or.inl (h0 ▸ hw0jj)
        · exact Or.inr ⟨w0, h0, hw0jj⟩
      obtain ⟨l, hl, hljj⟩ := fillLines_hasJJ (width - indentLen) ws w width hinv
      rw [hfill] at hl
      rcases List.mem_cons.mp hl with h0 | h0
      · exact ⟨l0, List.mem_cons_self _ _, h0 ▸ hljj⟩
      · refine ⟨indent ++ l, ?_, hasJJ_append_right hljj⟩
        exact List.mem_cons_of_mem _ (List.mem_map_of_mem _ h0)

theorem NAME_COLORS_facts :
    ∀ p ∈ NAME_COLORS, p.2 ≠ [] ∧ p.2.head? = some '{' ∧
      p.2.getLast? = some '}' ∧ hasJJ p.2 = false := by decide

theorem lookupStr_mem {t : List (Str × Str)} {k c : Str} (h : lookupStr t k = some c) :
    ∃ p ∈ t, p.2 = c := by
  rw [lookupStr] at h
  cases hf : t.find? (fun p => decide (p.1 = k)) with
  | none => rw [hf] at h; simp at h
  | some p =>
    rw [hf] at h
    refine ⟨p, List.mem_of_find?_eq_some hf, ?_⟩
    simpa using h

theorem gmfl_spec (line : Str) (msgs : List Message)
    (hres : get_messages_from_line line = some msgs) :
    ∃ fields sent author color m0 rest,
      record_fields line = some fields ∧
      record_author line = some author ∧
      lookupStr NAME_COLORS author = some color ∧
      (textwrap_wrap (pyReplace (pystr "👏") (pystr "]]")
          (pyReplace (pystr "\"\"") (pystr "\"")
            (author ++ pystr ": " ++ pyStrip1 fields.2.2.1)))
        MAX_LINE_LENGTH (pystr "\\h\\h") 2).map (fun content =>
          Message.mk sent (pyReplace (pystr "]]") (pystr "👏") content)) = m0 :: rest ∧
      msgs = Message.mk m0.sent_time
          (pyReplace (author ++ pystr ": ")
            (color ++ author ++ pystr ": " ++ text_white_reset) m0.text) :: rest := by
  rw [get_messages_from_line] at hres
  cases hf : record_fields line with
  | none =>
    rw [hf] at hres
    simp at hres
  | some fields =>
    rw [hf] at hres
    simp only [Option.bind_eq_bind, Option.some_bind] at hres
    cases hsent : convert_message_timestamp_to_subtitle_time (pyStrip1 fields.2.1) with
    | none =>
      rw [hsent] at hres
      simp at hres
    | some sent =>
      rw [hsent] at hres
      simp only [Option.some_bind] at hres
      cases ha : record_author line with
      | none =>
        rw [ha] at hres
        simp at hres
      | some author =>
        rw [ha] at hres
        simp only [Option.some_bind] at hres
        split at hres
        · simp at hres
        · rename_i m0 rest hm
          cases hc : lookupStr NAME_COLORS author with
          | none =>
            rw [hc] at hres
            simp at hres
          | some color =>
            rw [hc] at hres
            simp only [Option.map_some'] at hres
            refine ⟨fields, sent, author, color, m0, rest, rfl, rfl, hc, hm, ?_⟩
            injection hres with hres
            exact hres.symm

/-- C10: a record whose raw quoted message text contains the literal
two-character sequence `"]]"` (and whose author name contains neither `']'`
nor the clap emoji) produces display lines in which that sequence has been
rewritten to the clap emoji: some produced line contains `'👏'`, and no
produced line contains `"]]"` — the original `"]]"` text is not preserved
at the public interface. -/
theorem C10_clap_rewrite (line q author : Str) (msgs : List Message)
    (hq : record_quoted line = some q)
    (ha : record_author line = some author)
    (hjj : hasJJ (pyStrip1 q) = true)
    (hnoclap : '👏' ∉ author) (hnobracket : ']' ∉ author)
    (hres : get_messages_from_line line = some msgs) :
    (∃ m ∈ msgs, '👏' ∈ m.text) ∧ (∀ m ∈ msgs, hasJJ m.text = false) := by
  obtain ⟨fields, sent, author', color, m0, rest, hf, ha', hc, hm, hmsgs⟩ :=
    gmfl_spec line msgs hres
  have hauth : author = author' := by
    rw [ha] at ha'
    injection ha' with h
  subst hauth
  have hqf : pyStrip1 fields.2.2.1 = pyStrip1 q := by
    rw [record_quoted, hf] at hq
    simp only [Option.map_some'] at hq
    injection hq with hq
    rw [hq]
  rw [hqf] at hm
  have hj0 : hasJJ (author ++ pystr ": " ++ pyStrip1 q) = true :=
    hasJJ_append_right hjj
  have hj1 : hasJJ (pyReplace (pystr "\"\"") (pystr "\"")
      (author ++ pystr ": " ++ pyStrip1 q)) = true := by
    rw [pyReplace]
    exact pyReplaceF_preserves_jj _ _ (by decide) (by decide) (by decide) _ _ hj0
  have hj2 : hasJJ (pyReplace (pystr "👏") (pystr "]]")
      (pyReplace (pystr "\"\"") (pystr "\"")
        (author ++ pystr ": " ++ pyStrip1 q))) = true := by
    rw [pyReplace]
    exact pyReplaceF_preserves_jj _ _ (by decide) (by decide) (by decide) _ _ hj1
  obtain ⟨l, hlmem, hljj⟩ := wrap_hasJJ _ MAX_LINE_LENGTH 2 (pystr "\\h\\h") hj2
  have hmem_map : Message.mk sent (pyReplace (pystr "]]") (pystr "👏") l) ∈
      m0 :: rest := by
    rw [← hm]
    exact List.mem_map_of_mem _ hlmem
  have hclap_l : '👏' ∈ pyReplace (pystr "]]") (pystr "👏") l := by
    rw [pyReplace]
    exact pyReplaceF_clap_mem l.length l (le_refl _) hljj
  have hnojj_all : ∀ m ∈ m0 :: rest, hasJJ m.text = false := by
    intro m hmem
    rw [← hm] at hmem
    obtain ⟨c, _, hcm⟩ := List.mem_map.mp hmem
    rw [← hcm]
    rw [show (Message.mk sent (pyReplace (pystr "]]") (pystr "👏") c)).text =
        pyReplace (pystr "]]") (pystr "👏") c from rfl]
    rw [pyReplace]
    exact pyReplaceF_clap_nojj c.length c (le_refl _)
  obtain ⟨pcolor, hpmem, hpc⟩ := lookupStr_mem hc
  have hcf := NAME_COLORS_facts pcolor hpmem
  rw [hpc] at hcf
  obtain ⟨cc, cs, hcolor_eq⟩ : ∃ cc cs, color = cc :: cs := by
    cases hcol : color with
    | nil => rw [hcol] at hcf; exact absurd rfl hcf.1
    | cons cc cs => exact ⟨cc, cs, rfl⟩
  have hcc : cc = '{' := by
    rw [hcolor_eq] at hcf
    have := hcf.2.1
    simpa using this
  have hrep_ne : (color ++ author ++ pystr ": " ++ text_white_reset) ≠ [] := by
    rw [hcolor_eq, hcc]
    simp
  have hrep_head : (color ++ author ++ pystr ": " ++ text_white_reset).head? ≠
      some ']' := by
    rw [hcolor_eq, hcc]
    intro hcontra
    simp [List.cons_append] at hcontra
  have hrep_last : (color ++ author ++ pystr ": " ++ text_white_reset).getLast? ≠
      some ']' := by
    intro hcontra
    rw [List.getLast?_append] at hcontra
    rw [show text_white_reset.getLast? = some '}' from by decide] at hcontra
    simp at hcontra
  have hrep_nojj : hasJJ (color ++ author ++ pystr ": " ++ text_white_reset) = false := by
    apply nojj_append_of_head
    · apply nojj_append_of_head
      · apply nojj_append_of_head
        · exact hcf.2.2.2
        · exact hasJJ_eq_false_of_not_mem hnobracket
        · intro hcontra
          exact hnobracket (mem_of_head?_eq_some hcontra)
      · decide
      · decide
    · decide
    · decide
  rw [hmsgs]
  constructor
  · rcases List.mem_cons.mp hmem_map with hcase | hcase
    · refine ⟨_, List.mem_cons_self _ _, ?_⟩
      rw [show (Message.mk m0.sent_time (pyReplace (author ++ pystr ": ")
          (color ++ author ++ pystr ": " ++ text_white_reset) m0.text)).text =
          pyReplace (author ++ pystr ": ")
            (color ++ author ++ pystr ": " ++ text_white_reset) m0.text from rfl]
      rw [pyReplace]
      apply pyReplaceF_mem
      · rw [← hcase]
        exact hclap_l
      · intro hcontra
        rcases List.mem_append.mp hcontra with hin | hin
        · exact hnoclap hin
        · exact absurd hin (by decide)
    · exact ⟨_, List.mem_cons_of_mem _ hcase, hclap_l⟩
  · intro m hmem2
    rcases List.mem_cons.mp hmem2 with hcase | hcase
    · rw [hcase]
      rw [show (Message.mk m0.sent_time (pyReplace (author ++ pystr ": ")
          (color ++ author ++ pystr ": " ++ text_white_reset) m0.text)).text =
          pyReplace (author ++ pystr ": ")
            (color ++ author ++ pystr ": " ++ text_white_reset) m0.text from rfl]
      rw [pyReplace]
      exact pyReplaceF_preserves_nojj _ _ hrep_ne hrep_nojj hrep_head hrep_last _ _
        (hnojj_all m0 (List.mem_cons_self _ _))
    · exact hnojj_all m (List.mem_cons_of_mem _ hcase)

theorem C1_map_monotone_witness :
    wfSnips [((0 : Int), 1000), (200000, 301000)] = true ∧
    map_snips [((0 : Int), 1000), (200000, 301000)] 14700 = some 5800 ∧
    map_snips [((0 : Int), 1000), (200000, 301000)] 14800 = some 15800 ∧
    (5800 : Int) ≤ 15800 :=
  ⟨by decide, by decide, by decide,
    @C1_map_monotone [((0 : Int), 1000), (200000, 301000)] 14700 14800 5800 15800
      (by decide) (by decide) (by decide) (by decide) (by decide)⟩

theorem C2_inside_collapses_witness :
    map_snips [((0 : Int), 1000), (200000, 301000)] 16642 = some 200000 :=
  @C2_inside_collapses [((0 : Int), 1000), (200000, 301000)] 16642
    (201000, 302000, 1000) (by decide) (by decide) (by decide) (by decide)

theorem C3_outside_regions_witness :
    map_snips [((0 : Int), 1000), (200000, 301000)] 14600 = some (-3200) ∧
    map_snips [((0 : Int), 1000), (200000, 301000)] 17700 = some 305800 ∧
    map_snips [((0 : Int), 1000), (200000, 301000)] 14700 = some 5800 :=
  ⟨(@C3_outside_regions [((0 : Int), 1000), (200000, 301000)] 14600 (by decide)).1
      (0, 1000, 0) (by decide) (by decide),
   (@C3_outside_regions [((0 : Int), 1000), (200000, 301000)] 17700 (by decide)).2.1
      (201000, 302000, 1000) (by decide) (by decide),
   (@C3_outside_regions [((0 : Int), 1000), (200000, 301000)] 14700 (by decide)).2.2
      0 (0, 1000, 0) (201000, 302000, 1000) (by decide) (by decide) (by decide)
      (by decide)⟩

theorem C4_window_size_witness :
    ((flat_window (padding ++ [[pad_message]]) LINES_ON_SCREEN).map
      (fun ws => ws.all (fun w => w.2.length == LINES_ON_SCREEN))) = some true := by
  obtain ⟨ws, hws, hall⟩ := C4_window_size [[pad_message]] (by decide)
  rw [hws]
  simp only [Option.map_some']
  congr 1
  rw [List.all_eq_true]
  intro w hw
  simpa using hall w hw

theorem C5_cue_contiguity_witness :
    some (window_end_time
        [((1 : Nat), [pad_message]), (1, [Message.mk (pystr "b") (pystr "t")])] 0) =
      window_begin_time
        [((1 : Nat), [pad_message]), (1, [Message.mk (pystr "b") (pystr "t")])] 1 ∧
    window_end_time
        [((1 : Nat), [pad_message]), (1, [Message.mk (pystr "b") (pystr "t")])] 1 =
      closing_time :=
  ⟨(C5_cue_contiguity _ 0 (by decide)).1 (by decide),
   (C5_cue_contiguity _ 1 (by decide)).2 (by decide)⟩

theorem C6_faded_regions_witness :
    ((List.replicate 24 pad_message).drop (LINES_ON_SCREEN - 1)).length = 1 ∧
    (format_faded_messages ((List.replicate 24 pad_message).drop (LINES_ON_SCREEN - 1))
        pad_message.sent_time
        (window_end_time [((1 : Nat), List.replicate 24 pad_message)] 0))[0]? =
      some (common_line_beginning pad_message.sent_time
          (window_end_time [((1 : Nat), List.replicate 24 pad_message)] 0) ++
        fade_tag ++ strMul (pystr " \\N") (LINES_ON_SCREEN - (1 - 0)) ++
        pad_message.text) := by
  have h := C6_faded_regions [((1 : Nat), List.replicate 24 pad_message)] 0 1
    (List.replicate 24 pad_message) pad_message (by decide) (by decide) (by decide)
    (by decide) (by decide)
  exact ⟨h.2.2.1, h.2.2.2 0 pad_message (by decide)⟩

theorem C7_wrap_roundtrip_witness :
    joinWithC ' ' (strip_continuations (pystr "\\h\\h")
      (textwrap_wrap (pystr "BattleToad: hello there wonderful chat people of the stream")
        MAX_LINE_LENGTH (pystr "\\h\\h") 2)) =
      pystr "BattleToad: hello there wonderful chat people of the stream" :=
  C7_wrap_roundtrip _ (by decide)

theorem C8_format_literal_witness :
    convert_message_timestamp_to_subtitle_time (pystr "04:08:20") =
      some (fmtHMS00 26800) ∧
    (fmtHMS00 26800).length = 11 ∧ (fmtHMS00 26800).drop 8 = pystr ".00" :=
  C8_format_literal (pystr "04:08:20") 14900
    [(32000, 35400, 0), (156800, 157390, 3400), (238180, 239090, 3990),
     (239500, 243900, 4900), (250540, 251520, 9300), (253520, 260650, 10280),
     (361170, 363160, 17410), (367400, 369390, 19400), (508260, 509390, 21390),
     (510020, 519420, 22520)] 26800 (by decide) (by decide) (by decide)

theorem C9_missing_color_aborts_witness :
    get_messages_from_line (pystr "\"NoSuchUser#123\";\"04:08:20\";\"hello\";;;") =
      none ∧
    main_output [pystr "\"NoSuchUser#123\";\"04:08:20\";\"hello\";;;"] = none :=
  C9_missing_color_aborts [pystr "\"NoSuchUser#123\";\"04:08:20\";\"hello\";;;"]
    (pystr "\"NoSuchUser#123\";\"04:08:20\";\"hello\";;;")
    (pystr "NoSuchUser") (pystr "\"hello\"")
    (by decide) (by decide) (by decide) (by decide) (by decide)

theorem C10_clap_rewrite_witness :
    (∃ m ∈ [Message.mk (pystr "00:04:28.00")
        (pystr "\x7b\\c&Hf3bb1a&\x7dBattleToad: \x7b\\c&HFFFFFF&\x7dhi 👏 there")],
      '👏' ∈ m.text) ∧
    (∀ m ∈ [Message.mk (pystr "00:04:28.00")
        (pystr "\x7b\\c&Hf3bb1a&\x7dBattleToad: \x7b\\c&HFFFFFF&\x7dhi 👏 there")],
      hasJJ m.text = false) :=
  C10_clap_rewrite
    (pystr "\"BattleToad#1\";\"04:08:20\";\"hi ]] there\";;;")
    (pystr "\"hi ]] there\"") (pystr "BattleToad")
    [Message.mk (pystr "00:04:28.00")
      (pystr "\x7b\\c&Hf3bb1a&\x7dBattleToad: \x7b\\c&HFFFFFF&\x7dhi 👏 there")]
    (by decide) (by decide) (by decide) (by decide) (by decide) (by decide)
